import Mathlib

/-!
Shallow embedding of the duplicate-image-scanner core of the `photolist`
repository: the `ImageData` / `ChecksumImageData` identity model
(`src/data/ImageData.py`, `src/data/ChecksumImageData.py`), the grouping,
cross-folder merge and baseline-filter algorithms of the scan pipeline
(`src/data/ImageData.py::find_duplicates`,
`src/services/ScannerService.py`), and the target path resolver
(`src/data/TargetPathResolver.py`).

Python values are modelled as follows: `None`-able fields become `Option`,
float timestamps become `Int` (their exact arithmetic is never claim
relevant), Python string truthiness (`if s:`) becomes "is a `some` of a
non-empty string", and Python `hash` of a key tuple is modelled by the key
tuple itself (`PyHash`): two Python hashes of such tuples are equal exactly
when the tuples are equal, up to hash collisions which the model ignores.
Python `dict`/`set` are modelled as insertion-ordered association lists
whose lookup succeeds on the first entry with an equal hash that compares
equal (`==` or object identity), mirroring CPython's probe sequence.
-/

/-- Python truthiness of an optional string: `None` and `""` are falsy. -/
def truthyS : Option String → Bool
  | none => false
  | some s => s ≠ ""

/-- Python truthiness of an optional integer: `None` and `0` are falsy. -/
def truthyI : Option Int → Bool
  | none => false
  | some n => n ≠ 0

/-- Fields of one `ImageData` / `ChecksumImageData` instance
(`src/data/ImageData.py` lines 54–60, `src/data/ChecksumImageData.py`
lines 14–27).  `checksum` models the memoized `_checksum` slot of
`ChecksumImageData` after its lazy computation: the MD5 hex digest of the
file, or `none` when `calculate_checksum` failed and returned `None`.
Plain metadata-mode instances carry `checksum := none` and never read it. -/
structure PyImage where
  path : String
  date : Option Int := none
  size : Option Int := none
  filename : Option String := none
  exif_date : Option String := none
  checksum : Option String := none
  deriving DecidableEq, Repr

/-- The first component of the metadata hash tuple: `date_key` in
`ImageData.__hash__` is either the EXIF date string or the filesystem
mtime, two Python values of different types. -/
inductive PyDateKey where
  | str : String → PyDateKey
  | num : Option Int → PyDateKey
  deriving DecidableEq, Repr

/-- The tuple a Python `__hash__` of either identity variant is computed
from.  `meta (date_key, size, filename)` is `ImageData.__hash__`'s tuple
(line 85); `ck (checksum, size)` is `ChecksumImageData.__hash__`'s tuple
(line 85 of ChecksumImageData.py). -/
inductive PyHash where
  | meta : PyDateKey → Option Int → Option String → PyHash
  | ck : String → Option Int → PyHash
  deriving DecidableEq, Repr

/-- `ImageData.__eq__` (lines 62–73), for two distinct instances (the
`self is other` short-circuit is handled separately where it can fire):
when both sides have a truthy EXIF date, compare `(exif_date, size)`;
otherwise compare `(filename, date, size)`. -/
def metaEq (a b : PyImage) : Bool :=
  if truthyS a.exif_date && truthyS b.exif_date then
    a.exif_date == b.exif_date && a.size == b.size
  else
    a.filename == b.filename && a.date == b.date && a.size == b.size

/-- `ImageData.__hash__` (lines 79–85): `hash((date_key, size, filename))`
with `date_key = exif_date if exif_date else date`. -/
def metaHash (a : PyImage) : PyHash :=
  PyHash.meta
    (if truthyS a.exif_date then PyDateKey.str (a.exif_date.getD "") else PyDateKey.num a.date)
    a.size a.filename

/-- `ChecksumImageData.__eq__` (lines 59–74), distinct-instance branch:
`checksum == other.checksum and size == other.size and checksum is not None`. -/
def ckEq (a b : PyImage) : Bool :=
  a.checksum == b.checksum && a.size == b.size && a.checksum.isSome

/-- `ChecksumImageData.__hash__` (lines 76–88): `hash((checksum, size))`
when the checksum is truthy, else fall back to the parent metadata hash. -/
def ckHash (a : PyImage) : PyHash :=
  if truthyS a.checksum then PyHash.ck (a.checksum.getD "") a.size
  else metaHash a

/-- A detection mode's identity contract: its equality, its hash, and how
to read an item's own path (`img_data.path` in the Python sources). -/
structure Keyed (α : Type) where
  eqb : α → α → Bool
  hkey : α → PyHash
  pathOf : α → String

/-- The metadata detection mode over plain values. -/
def metaKeyed : Keyed PyImage := ⟨metaEq, metaHash, PyImage.path⟩

/-- The checksum detection mode over plain values. -/
def ckKeyed : Keyed PyImage := ⟨ckEq, ckHash, PyImage.path⟩

/-- Detection mode selected by `use_checksum` (`ScannerService.scan`). -/
def modeKeyed (useCk : Bool) : Keyed PyImage :=
  if useCk then ckKeyed else metaKeyed

/-- Object-level instances: a value paired with a Python object identity.
`self is other` in either `__eq__` (and CPython's identity short-circuit
during `dict`/`set` probing) is `true` exactly on equal identities; two
distinct live instances always have distinct identities. -/
def instKeyed {α : Type} (K : Keyed α) : Keyed (Nat × α) :=
  ⟨fun a b => a.1 == b.1 || K.eqb a.2 b.2,
   fun a => K.hkey a.2,
   fun a => K.pathOf a.2⟩

/-!
Python `dict` keyed by identities, modelled as an insertion-ordered
association list from identities to path lists (Python path `set`s are
modelled as insertion-ordered duplicate-free lists; all set-level claims
below are stated via membership and cardinality, never via order).
-/

/-- A Python `dict` mapping identities to sets of paths:
`found_files` / `all_duplicates` / `image_map` in the sources. -/
abbrev PMap (α : Type) : Type := List (α × List String)

/-- CPython `dict`/`set` probing finds a stored key `k` for a probe `x`
when the stored hash equals the probe's hash and the stored key compares
equal to the probe. -/
def keyMatch {α : Type} (K : Keyed α) (k x : α) : Bool :=
  decide (K.hkey k = K.hkey x) && K.eqb k x

/-- `set.add` on a path set: adding an already-present path is a no-op;
a new path is (for the model's order) appended. -/
def addPath (ps : List String) (p : String) : List String :=
  if p ∈ ps then ps else ps ++ [p]

/-- Adding every path of `new` to a path set: `paths.update(new)`. -/
def addPaths (ps new : List String) : List String :=
  new.foldl addPath ps

/-- `found_files[img].add(img.path)` when a matching key exists, else
`found_files[img] = {img.path}` — one iteration of the grouping loops in
`find_duplicates` (ImageData.py lines 123–127) and of the uniques fold in
`_merge_folder_results` (ScannerService.py lines 217–221). -/
def upsert {α : Type} (K : Keyed α) : PMap α → α → PMap α
  | [], x => [(x, [K.pathOf x])]
  | (k, ps) :: rest, x =>
    if keyMatch K k x then (k, addPath ps (K.pathOf x)) :: rest
    else (k, ps) :: upsert K rest x

/-- `all_duplicates[img].update(paths)` when a matching key exists, else
`all_duplicates[img] = paths.copy()` — one iteration of the duplicate
aggregation loop in `_scan_folders_parallel` (ScannerService.py lines
180–184). -/
def upsertSet {α : Type} (K : Keyed α) : PMap α → α → List String → PMap α
  | [], x, new => [(x, new)]
  | (k, ps) :: rest, x, new =>
    if keyMatch K k x then (k, addPaths ps new) :: rest
    else (k, ps) :: upsertSet K rest x new

/-- `image_map[img_data] = paths`: Python dict assignment keeps the stored
key object and replaces the value when a matching key exists, else appends
a new entry (ScannerService.py lines 213–214). -/
def assignKey {α : Type} (K : Keyed α) : PMap α → α → List String → PMap α
  | [], x, new => [(x, new)]
  | (k, ps) :: rest, x, new =>
    if keyMatch K k x then (k, new) :: rest
    else (k, ps) :: assignKey K rest x new

/-- Membership of an identity in a Python `set` of identities
(`u not in known_items` in `_filter_against_base`). -/
def memberSet {α : Type} (K : Keyed α) (s : List α) (x : α) : Bool :=
  s.any (fun m => keyMatch K m x)

/-- `set.add` on a set of identities (`known_items.update(...)`). -/
def setInsert {α : Type} (K : Keyed α) (s : List α) (x : α) : List α :=
  if memberSet K s x then s else s ++ [x]

/-- The grouping loop of `find_duplicates` (ImageData.py lines 121–127):
fold the probed identities into a map from identity to path set. -/
def groupFiles {α : Type} (K : Keyed α) (imgs : List α) : PMap α :=
  imgs.foldl (upsert K) []

/-- The classification loop shared by `find_duplicates` (lines 129–137)
and `_merge_folder_results` (lines 223–230): entries with more than one
path are duplicate groups, the remaining keys are uniques. -/
def splitGroups {α : Type} (m : PMap α) : List α × PMap α :=
  ((m.filter (fun kp => !decide (1 < kp.2.length))).map (fun kp => kp.1),
   m.filter (fun kp => decide (1 < kp.2.length)))

/-- `_merge_folder_results` (ScannerService.py lines 196–232) without the
final classification: seed `image_map` with every aggregated duplicate
group, then fold every unique in, joining an existing group when its
identity already has an entry. -/
def mergeImageMap {α : Type} (K : Keyed α) (allUniques : List α) (allDups : PMap α) : PMap α :=
  allUniques.foldl (upsert K)
    (allDups.foldl (fun m kp => assignKey K m kp.1 kp.2) [])

/-- `_merge_folder_results`: the merge map followed by classification by
path-set cardinality. -/
def mergeFolderResults {α : Type} (K : Keyed α) (allUniques : List α) (allDups : PMap α) :
    List α × PMap α :=
  splitGroups (mergeImageMap K allUniques allDups)

/-- The result fields the claims are about (`src/data/ScanResult.py`).
The wall-clock `timestamp` field is environment input and is not
modelled. -/
structure ScanResultM (α : Type) where
  uniques : List α
  duplicates : PMap α
  scanned_paths : List String
  extension : String
  detection_mode : String
  deriving DecidableEq, Repr

/-- `_filter_against_base` (ScannerService.py lines 234–261): build the
set of known identities from the base result's uniques and duplicate-group
keys, then drop every unique and every duplicate group whose identity is
in that set. -/
def filterAgainstBase {α : Type} (K : Keyed α) (uniques : List α) (duplicates : PMap α)
    (base : ScanResultM α) : List α × PMap α :=
  let known := (base.duplicates.map (fun kp => kp.1)).foldl (setInsert K)
    (base.uniques.foldl (setInsert K) [])
  (uniques.filter (fun u => !memberSet K known u),
   duplicates.filter (fun kp => !memberSet K known kp.1))

/-!
The file-discovery and probing layer.  The filesystem is modelled as, per
scan root, a list of regular files in enumeration (glob) order.  The final
repository's `collect_paths`/`find_duplicates` accept a list of extensions
and a `use_checksum` switch — `ScannerService` and its unit tests call
them that way — while `src/data/ImageData.py` holds an earlier snapshot
taking a single extension and producing only metadata identities; the
multi-extension iteration and the checksum-variant construction are
therefore modelled from the spec (§4.1, §4.2) on top of that snapshot's
logic, as noted on each definition.
-/

/-- One regular file as the prober observes it: absolute path, base name,
mtime, size, whether PIL can decode it, its EXIF `DateTimeOriginal` (if
any), and the result `calculate_checksum` would produce for it (`none`
models an I/O failure; an MD5 hex digest is never the empty string). -/
structure FsFile where
  absPath : String
  name : String
  mtime : Int
  size : Int
  isImage : Bool
  exif : Option String := none
  md5 : Option String := none
  deriving DecidableEq, Repr

/-- Does a file name match one extension: the glob mask
`root + '/**/*.' + ext` of `collect_paths` (ImageData.py line 14) keeps
exactly the names ending in `"." ++ ext`, literally and case-sensitively. -/
def matchesExt (name ext : String) : Bool :=
  (String.append "." ext).data.isSuffixOf name.data

/-- The body of `collect_paths`' enumeration loop (ImageData.py lines
16–26) for one extension over one root, threading `(collected, visited)`:
a matching path already in the visited set is skipped, otherwise it is
added to both. -/
def collectFilesExt (ext : String) : List FsFile → List String × List String → List String × List String
  | [], st => st
  | f :: rest, st =>
    collectFilesExt ext rest
      (if matchesExt f.name ext then
        (if f.absPath ∈ st.2 then st else (st.1 ++ [f.absPath], st.2 ++ [f.absPath]))
      else st)

/-- Modelled from the spec (§4.2 step 1): the final `collect_paths`
enumerates the root once per extension of the allow-list, sharing one
visited set (the snapshot in `src/data/ImageData.py` does exactly this for
a single extension). -/
def collect_paths (files : List FsFile) : List String → List String × List String → List String × List String
  | [], st => st
  | e :: rest, st => collect_paths files rest (collectFilesExt e files st)

/-- `process_image` (ImageData.py lines 29–52) on one collected path:
opening a path with no file behind it raises and yields `None`; a
non-decodable file yields `None`; otherwise an identity carrying the stat
and EXIF data is built.  Modelled from the spec (§4.1) beyond the
snapshot: in checksum mode the identity is the checksum variant, whose
lazily computed checksum field resolves to the file's digest. -/
def process_image (useCk : Bool) (files : List FsFile) (p : String) : Option PyImage :=
  match files.find? (fun f => f.absPath == p) with
  | none => none
  | some f =>
    if f.isImage then
      some { path := f.absPath, date := some f.mtime, size := some f.size,
             filename := some f.name, exif_date := f.exif,
             checksum := if useCk then f.md5 else none }
    else none

/-- `find_duplicates` (ImageData.py lines 88–138) for one root, as the
orchestrator invokes it: collect the matching paths, probe each, keep the
successful probes, group them by identity, and classify the groups.
Probes complete on a thread pool in nondeterministic order; the model
folds them in submission order (every property claimed below is
order-insensitive). -/
def find_duplicates (useCk : Bool) (exts : List String) (files : List FsFile) :
    List PyImage × PMap PyImage :=
  let paths := (collect_paths files exts ([], [])).1
  let probed := paths.filterMap (process_image useCk files)
  splitGroups (groupFiles (modeKeyed useCk) probed)

/-- The aggregation loop of `_scan_folders_parallel` (ScannerService.py
lines 169–186): concatenate every folder's uniques and fold every
folder's duplicate groups into one dict. -/
def aggregateFolder (K : Keyed PyImage) (acc r : List PyImage × PMap PyImage) :
    List PyImage × PMap PyImage :=
  (acc.1 ++ r.1, r.2.foldl (fun m kp => upsertSet K m kp.1 kp.2) acc.2)

/-- Folding every completed folder result into the shared accumulators
(`all_uniques`, `all_duplicates`), in completion order; the model receives
the per-folder results in that order. -/
def aggregateResults (K : Keyed PyImage) (rs : List (List PyImage × PMap PyImage)) :
    List PyImage × PMap PyImage :=
  rs.foldl (aggregateFolder K) ([], [])

/-- The cancellation signal (`ImageData.ProcessingCancelled`). -/
inductive PErr where
  | cancelled
  deriving DecidableEq, Repr

/-- Extension argument of `ScannerService.scan`: a single string or a list
of strings (ScannerService.py line 71). -/
inductive ExtArg where
  | single : String → ExtArg
  | multi : List String → ExtArg
  deriving DecidableEq, Repr

/-- `extensions = [ext] if isinstance(ext, str) else ext`. -/
def normalizeExt : ExtArg → List String
  | .single e => [e]
  | .multi l => l

/-- `_scan_folders_parallel` (ScannerService.py lines 114–194).  The
cooperative cancel flag is polled at the top of the completion loop and
once more after it; `observedAfter = some k` means the flag was observed
set after `k` folder results had been folded in, upon which the loop
breaks and the final poll (line 191) raises `ProcessingCancelled`,
discarding the partial aggregation; `observedAfter = none` means the flag
was never set during the scan, so every folder's result is aggregated and
returned. -/
def scan_folders_parallel (useCk : Bool) (exts : List String)
    (folders : List (List FsFile)) (observedAfter : Option Nat) :
    Except PErr (List PyImage × PMap PyImage) :=
  let processed := match observedAfter with
    | some k => folders.take k
    | none => folders
  let agg := aggregateResults (modeKeyed useCk) (processed.map (find_duplicates useCk exts))
  match observedAfter with
  | some _ => Except.error PErr.cancelled
  | none => Except.ok agg

/-- `ScannerService.scan` (ScannerService.py lines 46–112): normalize the
extension argument, scan all folders in parallel, merge the per-folder
results, optionally filter against a base result, and build the
`ScanResult`; a `ProcessingCancelled` raised below propagates to the
caller unchanged, so no `ScanResult` is built for a cancelled run. -/
def serviceScan (folders : List (String × List FsFile)) (ext : ExtArg)
    (useCk : Bool) (base : Option (ScanResultM PyImage)) (observedAfter : Option Nat) :
    Except PErr (ScanResultM PyImage) :=
  let exts := normalizeExt ext
  match scan_folders_parallel useCk exts (folders.map (fun fo => fo.2)) observedAfter with
  | Except.error e => Except.error e
  | Except.ok (allUniques, allDups) =>
    let merged := mergeFolderResults (modeKeyed useCk) allUniques allDups
    let final := match base with
      | some b => filterAgainstBase (modeKeyed useCk) merged.1 merged.2 b
      | none => merged
    Except.ok
      { uniques := final.1, duplicates := final.2,
        scanned_paths := folders.map (fun fo => fo.1),
        extension := String.intercalate ", " exts,
        detection_mode := if useCk then "checksum" else "metadata" }

/-- All file paths a scan result accounts for: each unique's own path and
every path of every duplicate group. -/
def allResultPaths {α : Type} (K : Keyed α) (r : ScanResultM α) : List String :=
  r.uniques.map K.pathOf ++ (r.duplicates.map (fun kp => kp.2)).flatten

/-!
Target path resolver (`src/data/TargetPathResolver.py`).  The EXIF string
branch embeds `datetime.strptime(date, "%Y:%m:%d %H:%M:%S")` as CPython
implements it: `_strptime` compiles the format into the anchored regex
`(?P<Y>\d\d\d\d):(?P<m>1[0-2]|0[1-9]|[1-9]):(?P<d>3[0-1]|[1-2]\d|0[1-9]|[1-9]| [1-9])\s+(?P<H>2[0-3]|[0-1]\d|\d):(?P<M>[0-5]\d|\d):(?P<S>6[0-1]|[0-5]\d|\d)`
(the format's one space becomes `\s+`), requires the whole string to be
consumed, and then the `datetime` constructor validates year 1–9999, the
day against the real calendar, and seconds 0–59 (so the leap seconds
60–61 the `%S` pattern admits still raise).  Every failure raises
`ValueError`, which `resolve_target_path` catches and turns into `None`.
Each field is followed by a token no digit can match (`:`, `\s+` or the
end-of-input check), so the regex alternations need no backtracking and
are parsed first-alternative-first below.  Digits are modelled as ASCII
`0-9`; non-ASCII Unicode decimal digits, which Python's `\d` would also
accept inside a `str`, do not occur in EXIF date strings and are not
modelled.  The numeric branch embeds `datetime.fromtimestamp` as the
standard civil-from-days conversion on whole seconds (the host's local
timezone offset is environment input and is modelled as zero).
-/

/-- Digit value of a digit character. -/
def dval (c : Char) : Nat := c.toNat - 48

/-- Decimal value of a digit run. -/
def digitsToNat (ds : List Char) : Nat :=
  ds.foldl (fun acc c => acc * 10 + dval c) 0

/-- Consume one expected literal character. -/
def expectChar (c : Char) : List Char → Option (List Char)
  | [] => none
  | x :: rest => if x = c then some rest else none

/-- A character Python's `\s` matches in a `str` pattern: the ASCII
whitespace and separator controls plus the Unicode space characters. -/
def isPySpace (c : Char) : Bool :=
  let n := c.toNat
  (9 ≤ n && n ≤ 13) || (28 ≤ n && n ≤ 31) || n = 32 || n = 133 || n = 160 ||
  n = 0x1680 || (0x2000 ≤ n && n ≤ 0x200a) || n = 0x2028 || n = 0x2029 ||
  n = 0x202f || n = 0x205f || n = 0x3000

/-- The `\s+` the format's literal space compiles to: at least one
whitespace character, consumed greedily (the following field starts with
a digit, which `\s` never matches, so greed is exact). -/
def skipWs1 : List Char → Option (List Char)
  | [] => none
  | c :: rest => if isPySpace c then some (rest.dropWhile isPySpace) else none

/-- The `%Y` field: exactly four digits (`\d\d\d\d`). -/
def parseYear4 : List Char → Option (Nat × List Char)
  | y1 :: y2 :: y3 :: y4 :: rest =>
    if y1.isDigit && y2.isDigit && y3.isDigit && y4.isDigit then
      some (digitsToNat [y1, y2, y3, y4], rest)
    else none
  | _ => none

/-- One of the remaining numeric `strptime` fields: a two-digit form when
its value is admitted by the field's two-digit patterns, else a one-digit
form when admitted (non-zero for `%m`/`%d`, any digit for `%H`/`%M`/`%S`),
else — for `%d` only (`spacePad`) — one space followed by a non-zero
digit, mirroring the `" [1-9]"` alternative of the `%d` pattern.  The
alternatives are disjoint on their first character and each field is
followed by a token no digit matches, so first-match parsing equals the
regex. -/
def parseField (valid2 valid1 : Nat → Bool) (spacePad : Bool) :
    List Char → Option (Nat × List Char)
  | a :: b :: rest =>
    if a.isDigit && b.isDigit && valid2 (dval a * 10 + dval b) then
      some (dval a * 10 + dval b, rest)
    else if a.isDigit && valid1 (dval a) then some (dval a, b :: rest)
    else if spacePad && a = ' ' && b.isDigit && 1 ≤ dval b then some (dval b, rest)
    else none
  | [a] => if a.isDigit && valid1 (dval a) then some (dval a, []) else none
  | [] => none

/-- Gregorian leap year, as `datetime`'s calendar has it. -/
def isLeapYear (y : Nat) : Bool :=
  y % 4 = 0 && (y % 100 ≠ 0 || y % 400 = 0)

/-- Number of days of a month (`m` between 1 and 12). -/
def daysInMonth (y m : Nat) : Nat :=
  if m = 2 then (if isLeapYear y then 29 else 28)
  else if m = 4 || m = 6 || m = 9 || m = 11 then 30
  else 31

/-- `datetime.strptime(s, "%Y:%m:%d %H:%M:%S")`, returning the
`(year, month, day)` the resolver goes on to format, or `none` where
Python raises `ValueError`: the field patterns and literal separators
first (four-digit year, space-padded day allowed, `\s+` for the space,
nothing unconverted), then the `datetime` constructor's checks (year at
least 1, day in range for the month, hour at most 23, minute and second
at most 59 — rejecting the leap seconds 60–61 the `%S` pattern matched). -/
def parseExifDate (s : String) : Option (Nat × Nat × Nat) := do
  let (y, r1) ← parseYear4 s.data
  let r2 ← expectChar ':' r1
  let (m, r3) ← parseField (fun v => 1 ≤ v && v ≤ 12) (fun v => 1 ≤ v) false r2
  let r4 ← expectChar ':' r3
  let (d, r5) ← parseField (fun v => 1 ≤ v && v ≤ 31) (fun v => 1 ≤ v) true r4
  let r6 ← skipWs1 r5
  let (hh, r7) ← parseField (fun v => v ≤ 23) (fun _ => true) false r6
  let r8 ← expectChar ':' r7
  let (mi, r9) ← parseField (fun v => v ≤ 59) (fun _ => true) false r8
  let r10 ← expectChar ':' r9
  let (ss, r11) ← parseField (fun v => v ≤ 61) (fun _ => true) false r10
  if r11.isEmpty && 1 ≤ y && 1 ≤ d && d ≤ daysInMonth y m && hh ≤ 23 && mi ≤ 59 && ss ≤ 59
  then some (y, m, d) else none

/-- Python `str.replace(pat, rep)`: replace every non-overlapping
occurrence left to right (the fuel is the string length, which bounds the
number of steps since every use here has a non-empty pattern). -/
def replaceFuel : Nat → List Char → List Char → List Char → List Char
  | 0, s, _, _ => s
  | _ + 1, [], _, _ => []
  | fuel + 1, c :: rest, pat, rep =>
    if !pat.isEmpty && pat.isPrefixOf (c :: rest) then
      rep ++ replaceFuel fuel ((c :: rest).drop pat.length) pat rep
    else c :: replaceFuel fuel rest pat rep

/-- Python `s.replace(pat, rep)` on strings. -/
def pyReplace (s pat rep : String) : String :=
  ⟨replaceFuel s.data.length s.data pat.data rep.data⟩

/-- Zero-padded decimal of width `w`: `dt.strftime` gives four digits for
`%Y` (claim-relevant years all have four digits) and two for `%m`/`%d`. -/
def padNum (w n : Nat) : String :=
  let s := toString n
  ⟨List.replicate (w - s.length) '0' ++ s.data⟩

/-- The placeholder substitution of `resolve_target_path` (lines 64–66):
replace `{year}`, `{month}`, `{day}` in the pattern. -/
def applyPattern (pattern : String) (y m d : Nat) : String :=
  pyReplace (pyReplace (pyReplace pattern "{year}" (padNum 4 y)) "{month}" (padNum 2 m))
    "{day}" (padNum 2 d)

/-- Civil date of a day count relative to 1970-01-01 (Howard Hinnant's
`civil_from_days`, the standard proleptic-Gregorian conversion). -/
def civilFromDays (z0 : Int) : Int × Nat × Nat :=
  let z := z0 + 719468
  let era := Int.tdiv (if 0 ≤ z then z else z - 146096) 146097
  let doe := z - era * 146097
  let yoe := Int.tdiv (doe - Int.tdiv doe 1460 + Int.tdiv doe 36524 - Int.tdiv doe 146096) 365
  let y := yoe + era * 400
  let doy := doe - (365 * yoe + Int.tdiv yoe 4 - Int.tdiv yoe 100)
  let mp := Int.tdiv (5 * doy + 2) 153
  let d := doy - Int.tdiv (153 * mp + 2) 5 + 1
  let m := mp + (if mp < 10 then 3 else -9)
  (y + (if m ≤ 2 then 1 else 0), m.toNat, d.toNat)

/-- The Python value held by the `date` variable of `resolve` (line 36):
an EXIF date string, a numeric mtime, or `None`. -/
inductive PyDate where
  | str : String → PyDate
  | num : Int → PyDate
  | noneV : PyDate
  deriving DecidableEq, Repr

/-- `TargetPathResolver.resolve_target_path(date, pattern)` (lines
39–70): falsy dates give `None`; strings go through `strptime`; numbers
through `fromtimestamp`; any exception gives `None`. -/
def resolve_target_path (d : PyDate) (pattern : String) : Option String :=
  match d with
  | .noneV => none
  | .str v =>
    if v = "" then none
    else match parseExifDate v with
      | none => none
      | some ymd => some (applyPattern pattern ymd.1 ymd.2.1 ymd.2.2)
  | .num t =>
    if t = 0 then none
    else
      let c := civilFromDays (Int.fdiv t 86400)
      if c.1 < 1 || 9999 < c.1 then none
      else some (applyPattern pattern c.1.toNat c.2.1 c.2.2)

/-- `resolve(image_data)` (lines 25–37): prefer a truthy EXIF date,
fall back to the file modification date, and resolve with the
configured pattern. -/
def resolverResolve (pattern : String) (img : PyImage) : Option String :=
  resolve_target_path
    (if truthyS img.exif_date then PyDate.str (img.exif_date.getD "")
     else match img.date with
       | none => PyDate.noneV
       | some t => PyDate.num t)
    pattern

/-- Grouping by the bare `__eq__` relation alone (no hash screening), the
reading of "grouping by this equality" used to exhibit order dependence:
a `Keyed` contract whose hash is constant, so that `keyMatch` degenerates
to the equality. -/
def eqOnlyKeyed {α : Type} (eqb : α → α → Bool) (pathOf : α → String) : Keyed α :=
  ⟨eqb, fun _ => PyHash.meta (PyDateKey.num none) none none, pathOf⟩

/-- The identities one folder's `find_duplicates` feeds into its grouping
loop: the collected paths, probed, with failed probes dropped. -/
def probedImages (useCk : Bool) (exts : List String) (files : List FsFile) : List PyImage :=
  ((collect_paths files exts ([], [])).1).filterMap (process_image useCk files)

/-- The keys of a dict, in insertion order. -/
def mapKeys {α : Type} (m : PMap α) : List α := m.map (fun kp => kp.1)

/-- Every path stored anywhere in a dict's path sets. -/
def mapPaths {α : Type} : PMap α → List String
  | [] => []
  | kp :: rest => kp.2 ++ mapPaths rest

/-- The structural invariant of every Python dict keyed by identities: no
later key probes equal (hash-and-equality) to an earlier stored key,
since the lookup preceding each insertion would have found it. -/
def NoKeyClash {α : Type} (K : Keyed α) (m : PMap α) : Prop :=
  m.Pairwise (fun e1 e2 => keyMatch K e1.1 e2.1 = false)

/-- Per-entry invariant of the grouping and merge maps: the path set is
duplicate-free and starts with the stored key's own path (the path the
entry was created with). -/
def entryOk {α : Type} (K : Keyed α) (e : α × List String) : Prop :=
  e.2.Nodup ∧ ∃ rest, e.2 = K.pathOf e.1 :: rest

/-- All identities any folder of a scan feeds into grouping, the domain
over which a scan's instances live. -/
def scanPool (useCk : Bool) (exts : List String) : List (List FsFile) → List PyImage
  | [] => []
  | fs :: rest => probedImages useCk exts fs ++ scanPool useCk exts rest

/-!
Helper lemmas shared by several claims.
-/

theorem keyMatch_instKeyed_self {α : Type} (K : Keyed α) (x : Nat × α) :
    keyMatch (instKeyed K) x x = true := by
  simp [keyMatch, instKeyed]

theorem memberSet_append {α : Type} (K : Keyed α) (s t : List α) (x : α) :
    memberSet K (s ++ t) x = (memberSet K s x || memberSet K t x) := by
  simp [memberSet, List.any_append]

theorem memberSet_setInsert_mono {α : Type} (K : Keyed α) (s : List α) (y x : α)
    (h : memberSet K s x = true) : memberSet K (setInsert K s y) x = true := by
  unfold setInsert
  by_cases hm : memberSet K s y
  · simp [hm, h]
  · simp only [hm, if_neg, Bool.false_eq_true, if_false]
    simp [memberSet_append, h]

theorem memberSet_setInsert_self {α : Type} (K : Keyed α)
    (hrefl : ∀ z, keyMatch K z z = true) (s : List α) (x : α) :
    memberSet K (setInsert K s x) x = true := by
  unfold setInsert
  by_cases hm : memberSet K s x
  · simp [hm]
  · simp only [hm, Bool.false_eq_true, if_false]
    simp [memberSet_append, memberSet, hrefl]

theorem memberSet_foldl_setInsert {α : Type} (K : Keyed α)
    (hrefl : ∀ z, keyMatch K z z = true) (l : List α) (s : List α) (x : α)
    (h : x ∈ l ∨ memberSet K s x = true) :
    memberSet K (l.foldl (setInsert K) s) x = true := by
  induction l generalizing s with
  | nil =>
    rcases h with h | h
    · cases h
    · simpa using h
  | cons y t ih =>
    simp only [List.foldl_cons]
    apply ih
    rcases h with h | h
    · rcases List.mem_cons.mp h with rfl | h
      · exact Or.inr (memberSet_setInsert_self K hrefl s x)
      · exact Or.inl h
    · exact Or.inr (memberSet_setInsert_mono K s y x h)

/-- C6: filtering any ScanResult against itself as the baseline yields
empty uniques and empty duplicates.  The result's entries are live
instances, so each is found in the known-items set at least through
CPython's object-identity short-circuit, whatever the detection mode's
value equality does. -/
theorem c6_baseline_filter_self_empty {α : Type} (K : Keyed α) (r : ScanResultM (Nat × α)) :
    filterAgainstBase (instKeyed K) r.uniques r.duplicates r = ([], []) := by
  unfold filterAgainstBase
  have hrefl := keyMatch_instKeyed_self K
  refine Prod.ext ?_ ?_
  · simp only []
    rw [List.filter_eq_nil_iff]
    intro u hu
    have : memberSet (instKeyed K)
        ((r.duplicates.map (fun kp => kp.1)).foldl (setInsert (instKeyed K))
          (r.uniques.foldl (setInsert (instKeyed K)) [])) u = true := by
      apply memberSet_foldl_setInsert _ hrefl
      exact Or.inr (memberSet_foldl_setInsert _ hrefl _ _ _ (Or.inl hu))
    simp [this]
  · simp only []
    rw [List.filter_eq_nil_iff]
    intro kp hkp
    have : memberSet (instKeyed K)
        ((r.duplicates.map (fun kp => kp.1)).foldl (setInsert (instKeyed K))
          (r.uniques.foldl (setInsert (instKeyed K)) [])) kp.1 = true := by
      apply memberSet_foldl_setInsert _ hrefl
      exact Or.inl (List.mem_map_of_mem _ hkp)
    simp [this]

/-- C7: whenever the cancel flag is observed during a scan (after any
number `k` of completed folder results), `scan` raises the cancellation
signal to its caller and builds no ScanResult at all. -/
theorem c7_cancelled_scan_yields_no_result (folders : List (String × List FsFile))
    (ext : ExtArg) (useCk : Bool) (base : Option (ScanResultM PyImage)) (k : Nat) :
    serviceScan folders ext useCk base (some k) = Except.error PErr.cancelled := rfl

/-- C9: `resolve()` on an identity whose EXIF date is
`"2023:12:31 14:30:00"` under the default `/{year}/{month}/{day}` pattern
gives `/2023/12/31`, and `resolve()` on an identity with neither an EXIF
date nor a modification time gives `None`. -/
theorem c9_resolve_exif_and_dateless :
    resolverResolve "/{year}/{month}/{day}"
      { path := "/x/img.jpg", exif_date := some "2023:12:31 14:30:00" } = some "/2023/12/31" ∧
    resolverResolve "/{year}/{month}/{day}" { path := "/x/img.jpg" } = none :=
  ⟨rfl, rfl⟩

/-- C5: two distinct checksum-variant instances compare equal exactly when
their checksums agree, their sizes agree, and the checksum is known; in
particular an instance with a failed (unknown) checksum equals no other
instance, in either direction. -/
theorem c5_checksum_equality_contract (a b : PyImage) :
    (ckEq a b = true ↔ a.checksum = b.checksum ∧ a.size = b.size ∧ a.checksum ≠ none) ∧
    (a.checksum = none → ckEq a b = false ∧ ckEq b a = false) := by
  constructor
  · simp [ckEq, Option.isSome_iff_ne_none, and_assoc]
  · intro h
    constructor
    · simp [ckEq, h]
    · cases hb : b.checksum <;> simp [ckEq, hb, h]

/-- C10: metadata equality is not transitive: with a shared filename,
mtime and size, an instance with EXIF date `E1` equals one with no EXIF
date, which equals one with EXIF date `E2`, while the two EXIF-dated
instances differ; grouping by this bare equality is therefore
order-dependent (two groups in one submission order, one in another). -/
theorem c10_metadata_eq_not_transitive :
    metaEq { path := "/r/a.jpg", date := some 10, size := some 100, filename := some "f.jpg",
             exif_date := some "2020:01:01 00:00:00" }
          { path := "/r/b.jpg", date := some 10, size := some 100, filename := some "f.jpg" } = true ∧
    metaEq { path := "/r/b.jpg", date := some 10, size := some 100, filename := some "f.jpg" }
          { path := "/r/c.jpg", date := some 10, size := some 100, filename := some "f.jpg",
            exif_date := some "2021:02:02 00:00:00" } = true ∧
    metaEq { path := "/r/a.jpg", date := some 10, size := some 100, filename := some "f.jpg",
             exif_date := some "2020:01:01 00:00:00" }
          { path := "/r/c.jpg", date := some 10, size := some 100, filename := some "f.jpg",
            exif_date := some "2021:02:02 00:00:00" } = false ∧
    (groupFiles (eqOnlyKeyed metaEq PyImage.path)
      [{ path := "/r/a.jpg", date := some 10, size := some 100, filename := some "f.jpg",
         exif_date := some "2020:01:01 00:00:00" },
       { path := "/r/b.jpg", date := some 10, size := some 100, filename := some "f.jpg" },
       { path := "/r/c.jpg", date := some 10, size := some 100, filename := some "f.jpg",
         exif_date := some "2021:02:02 00:00:00" }]).length = 2 ∧
    (groupFiles (eqOnlyKeyed metaEq PyImage.path)
      [{ path := "/r/b.jpg", date := some 10, size := some 100, filename := some "f.jpg" },
       { path := "/r/a.jpg", date := some 10, size := some 100, filename := some "f.jpg",
         exif_date := some "2020:01:01 00:00:00" },
       { path := "/r/c.jpg", date := some 10, size := some 100, filename := some "f.jpg",
         exif_date := some "2021:02:02 00:00:00" }]).length = 1 := by
  decide

/-- C4 counterexample: metadata equality does not imply equal hashes.
Two instances sharing EXIF date and size but differing in filename
compare equal through the EXIF branch while their hash tuples differ in
the filename slot; two instances equal through the metadata fallback, of
which only one carries an EXIF date, hash through different date keys. -/
theorem c4_eq_hash_law_counterexample :
    (metaEq { path := "/r/a.jpg", date := some 1, size := some 100, filename := some "a.jpg",
              exif_date := some "2020:01:01 00:00:00" }
           { path := "/r/b.jpg", date := some 2, size := some 100, filename := some "b.jpg",
             exif_date := some "2020:01:01 00:00:00" } = true ∧
      metaHash { path := "/r/a.jpg", date := some 1, size := some 100, filename := some "a.jpg",
                 exif_date := some "2020:01:01 00:00:00" } ≠
      metaHash { path := "/r/b.jpg", date := some 2, size := some 100, filename := some "b.jpg",
                 exif_date := some "2020:01:01 00:00:00" }) ∧
    (metaEq { path := "/r/c.jpg", date := some 5, size := some 100, filename := some "f.jpg",
              exif_date := some "2020:01:01 00:00:00" }
           { path := "/r/d.jpg", date := some 5, size := some 100, filename := some "f.jpg" } = true ∧
      metaHash { path := "/r/c.jpg", date := some 5, size := some 100, filename := some "f.jpg",
                 exif_date := some "2020:01:01 00:00:00" } ≠
      metaHash { path := "/r/d.jpg", date := some 5, size := some 100, filename := some "f.jpg" }) := by
  decide

/-- C4 amended: equality implies equal hashes for the metadata variant
whenever the two instances agree on EXIF-date presence and on filename,
and for the checksum variant whenever the checksum is an actual digest
(non-empty, as `calculate_checksum` always produces). -/
theorem c4_eq_implies_hash_eq_amended :
    (∀ a b : PyImage, metaEq a b = true → truthyS a.exif_date = truthyS b.exif_date →
      a.filename = b.filename → metaHash a = metaHash b) ∧
    (∀ a b : PyImage, ckEq a b = true → a.checksum ≠ some "" → ckHash a = ckHash b) := by
  constructor
  · intro a b heq hpres hfn
    unfold metaEq at heq
    unfold metaHash
    by_cases ha : truthyS a.exif_date
    · have hb : truthyS b.exif_date = true := hpres ▸ ha
      simp only [ha, hb, Bool.and_self, if_true, beq_iff_eq, Bool.and_eq_true,
        decide_eq_true_eq] at heq
      simp [ha, hb, heq.1, heq.2, hfn]
    · have hb : truthyS b.exif_date = false := by
        rw [← hpres]; exact Bool.not_eq_true _ ▸ eq_false_of_ne_true ha
      simp only [ha, Bool.false_and, Bool.false_eq_true, if_false, beq_iff_eq,
        Bool.and_eq_true, decide_eq_true_eq] at heq
      simp only [ha, hb, Bool.false_eq_true, if_false]
      rw [heq.1.1, heq.1.2, heq.2]
  · intro a b heq hne
    unfold ckEq at heq
    simp only [beq_iff_eq, Bool.and_eq_true, decide_eq_true_eq, Option.isSome_iff_ne_none] at heq
    obtain ⟨⟨hcs, hsz⟩, hnn⟩ := heq
    have hta : truthyS a.checksum = true := by
      cases hc : a.checksum with
      | none => exact absurd hc hnn
      | some s =>
        simp only [truthyS, ne_eq, decide_eq_true_eq]
        intro hs
        exact hne (by rw [hc, hs])
    unfold ckHash
    rw [hcs] at hta ⊢
    simp [hta, hsz, hcs]

/-- C4 witness: the amended implication applied at concrete instances. -/
theorem c4_eq_implies_hash_eq_amended_witness :
    metaHash { path := "/r/a.jpg", date := some 3, size := some 9, filename := some "n.jpg",
               exif_date := some "2020:01:01 00:00:00" } =
    metaHash { path := "/r/b.jpg", date := some 3, size := some 9, filename := some "n.jpg",
               exif_date := some "2020:01:01 00:00:00" } ∧
    ckHash { path := "/r/a.jpg", size := some 9, checksum := some "abc" } =
    ckHash { path := "/r/b.jpg", size := some 9, checksum := some "abc" } :=
  ⟨c4_eq_implies_hash_eq_amended.1
      { path := "/r/a.jpg", date := some 3, size := some 9, filename := some "n.jpg",
        exif_date := some "2020:01:01 00:00:00" }
      { path := "/r/b.jpg", date := some 3, size := some 9, filename := some "n.jpg",
        exif_date := some "2020:01:01 00:00:00" } (by decide) (by decide) (by decide),
   c4_eq_implies_hash_eq_amended.2
      { path := "/r/a.jpg", size := some 9, checksum := some "abc" }
      { path := "/r/b.jpg", size := some 9, checksum := some "abc" } (by decide) (by decide)⟩

/-- C1: a checksum-mode scan over roots `/A` (holding `img.jpg`, checksum
`X`, size 100) and `/B` (holding `copy.jpg`, checksum `X`, size 100)
completes with no uniques and exactly one duplicate group, keyed by an
identity whose checksum is `X`, whose path set is
`{/A/img.jpg, /B/copy.jpg}`. -/
theorem c1_two_roots_checksum_duplicate_group :
    ∃ r : ScanResultM PyImage,
      serviceScan
        [("/A", [{ absPath := "/A/img.jpg", name := "img.jpg", mtime := 11, size := 100,
                   isImage := true, md5 := some "X" }]),
         ("/B", [{ absPath := "/B/copy.jpg", name := "copy.jpg", mtime := 22, size := 100,
                   isImage := true, md5 := some "X" }])]
        (ExtArg.single "jpg") true none none = Except.ok r ∧
      r.uniques = [] ∧
      r.duplicates.length = 1 ∧
      (∀ kp ∈ r.duplicates, kp.1.checksum = some "X" ∧ kp.2.length = 2 ∧
        "/A/img.jpg" ∈ kp.2 ∧ "/B/copy.jpg" ∈ kp.2) := by
  refine ⟨_, rfl, rfl, rfl, ?_⟩
  decide

/-- C5 witness: the contract applied to two concrete instances whose
checksum computation failed. -/
theorem c5_checksum_equality_contract_witness :
    ckEq { path := "/r/p.jpg", size := some 1 } { path := "/r/q.jpg", size := some 1 } = false :=
  ((c5_checksum_equality_contract { path := "/r/p.jpg", size := some 1 }
    { path := "/r/q.jpg", size := some 1 }).2 rfl).1

theorem addPath_mem_self (ps : List String) (p : String) : p ∈ addPath ps p := by
  unfold addPath
  by_cases h : p ∈ ps
  · simp [h]
  · simp [h]

theorem addPath_mem_mono {ps : List String} {q : String} (p : String) (h : q ∈ ps) :
    q ∈ addPath ps p := by
  unfold addPath
  by_cases hp : p ∈ ps <;> simp [hp, h]

theorem addPath_nodup {ps : List String} (p : String) (h : ps.Nodup) : (addPath ps p).Nodup := by
  unfold addPath
  by_cases hp : p ∈ ps
  · simpa [hp]
  · simp only [hp, if_false]
    exact List.Nodup.append h (List.nodup_singleton p)
      (by simpa [List.disjoint_singleton] using hp)

theorem addPath_head {a : String} {ps rest : List String} (p : String) (h : ps = a :: rest) :
    ∃ r2, addPath ps p = a :: r2 := by
  subst h
  unfold addPath
  by_cases hp : p ∈ a :: rest
  · exact ⟨rest, by simp [hp]⟩
  · exact ⟨rest ++ [p], by simp [hp]⟩

theorem addPath_length_le (ps : List String) (p : String) : ps.length ≤ (addPath ps p).length := by
  unfold addPath
  by_cases hp : p ∈ ps <;> simp [hp]

theorem addPaths_mem_left {ps : List String} {q : String} (new : List String) (h : q ∈ ps) :
    q ∈ addPaths ps new := by
  induction new generalizing ps with
  | nil => simpa [addPaths]
  | cons p t ih =>
    simp only [addPaths, List.foldl_cons]
    exact ih (addPath_mem_mono p h)

theorem addPaths_mem_right {new : List String} {q : String} (ps : List String) (h : q ∈ new) :
    q ∈ addPaths ps new := by
  induction new generalizing ps with
  | nil => cases h
  | cons p t ih =>
    simp only [addPaths, List.foldl_cons]
    rcases List.mem_cons.mp h with rfl | h
    · exact addPaths_mem_left t (addPath_mem_self ps q)
    · exact ih (addPath ps p) h

theorem addPaths_nodup {ps : List String} (new : List String) (h : ps.Nodup) :
    (addPaths ps new).Nodup := by
  induction new generalizing ps with
  | nil => simpa [addPaths]
  | cons p t ih =>
    simp only [addPaths, List.foldl_cons]
    exact ih (addPath_nodup p h)

theorem addPaths_head {a : String} {ps rest : List String} (new : List String)
    (h : ps = a :: rest) : ∃ r2, addPaths ps new = a :: r2 := by
  induction new generalizing ps rest with
  | nil => exact ⟨rest, by simpa [addPaths]⟩
  | cons p t ih =>
    simp only [addPaths, List.foldl_cons]
    obtain ⟨r2, hr2⟩ := addPath_head p h
    exact ih hr2

theorem addPaths_length_le (ps new : List String) : ps.length ≤ (addPaths ps new).length := by
  induction new generalizing ps with
  | nil => simp [addPaths]
  | cons p t ih =>
    simp only [addPaths, List.foldl_cons]
    exact le_trans (addPath_length_le ps p) (ih (addPath ps p))

theorem upsert_keys {α : Type} (K : Keyed α) (m : PMap α) (x : α) :
    ∀ e ∈ upsert K m x, e.1 ∈ mapKeys m ∨ e.1 = x := by
  induction m with
  | nil =>
    intro e he
    simp only [upsert, List.mem_singleton] at he
    subst he
    exact Or.inr rfl
  | cons kp rest ih =>
    intro e he
    rw [upsert] at he
    by_cases h : keyMatch K kp.1 x
    · simp only [h, if_true] at he
      rcases List.mem_cons.mp he with rfl | he
      · exact Or.inl (by simp [mapKeys])
      · exact Or.inl (by simp [mapKeys]; exact Or.inr ⟨e.2, by simpa using he⟩)
    · simp only [h, Bool.false_eq_true, if_false] at he
      rcases List.mem_cons.mp he with rfl | he
      · exact Or.inl (by simp [mapKeys])
      · rcases ih e he with hk | hk
        · exact Or.inl (by simp [mapKeys] at hk ⊢; tauto)
        · exact Or.inr hk

theorem mapPaths_append {α : Type} (m1 m2 : PMap α) :
    mapPaths (m1 ++ m2) = mapPaths m1 ++ mapPaths m2 := by
  induction m1 with
  | nil => simp [mapPaths]
  | cons kp rest ih => simp [mapPaths, ih]

theorem upsert_paths_mono {α : Type} (K : Keyed α) {m : PMap α} {q : String} (x : α)
    (h : q ∈ mapPaths m) : q ∈ mapPaths (upsert K m x) := by
  induction m with
  | nil => cases h
  | cons kp rest ih =>
    rw [upsert]
    by_cases hm : keyMatch K kp.1 x
    · simp only [hm, if_true, mapPaths, List.mem_append] at h ⊢
      rcases h with h | h
      · exact Or.inl (addPath_mem_mono _ h)
      · exact Or.inr h
    · simp only [hm, Bool.false_eq_true, if_false, mapPaths, List.mem_append] at h ⊢
      rcases h with h | h
      · exact Or.inl h
      · exact Or.inr (ih h)

theorem upsert_pathOf_mem {α : Type} (K : Keyed α) (m : PMap α) (x : α) :
    K.pathOf x ∈ mapPaths (upsert K m x) := by
  induction m with
  | nil => simp [upsert, mapPaths]
  | cons kp rest ih =>
    rw [upsert]
    by_cases hm : keyMatch K kp.1 x
    · simp only [hm, if_true, mapPaths, List.mem_append]
      exact Or.inl (addPath_mem_self _ _)
    · simp only [hm, Bool.false_eq_true, if_false, mapPaths, List.mem_append]
      exact Or.inr ih

theorem upsert_noKeyClash {α : Type} (K : Keyed α) {m : PMap α} (x : α)
    (h : NoKeyClash K m) : NoKeyClash K (upsert K m x) := by
  induction m with
  | nil => simp [upsert, NoKeyClash]
  | cons kp rest ih =>
    rw [upsert]
    rw [NoKeyClash, List.pairwise_cons] at h
    by_cases hm : keyMatch K kp.1 x
    · simp only [hm, if_true]
      rw [NoKeyClash, List.pairwise_cons]
      exact ⟨h.1, h.2⟩
    · simp only [hm, Bool.false_eq_true, if_false]
      rw [NoKeyClash, List.pairwise_cons]
      refine ⟨?_, ih h.2⟩
      intro e he
      rcases upsert_keys K rest x e he with hk | hk
      · rcases List.mem_map.mp hk with ⟨f, hf, hfe⟩
        have := h.1 f hf
        rw [hfe] at this
        exact this
      · rw [hk]
        exact eq_false_of_ne_true hm

theorem upsert_entryOk {α : Type} (K : Keyed α) {m : PMap α} (x : α)
    (h : ∀ e ∈ m, entryOk K e) : ∀ e ∈ upsert K m x, entryOk K e := by
  induction m with
  | nil =>
    intro e he
    simp only [upsert, List.mem_singleton] at he
    subst he
    exact ⟨List.nodup_singleton _, [], rfl⟩
  | cons kp rest ih =>
    intro e he
    rw [upsert] at he
    by_cases hm : keyMatch K kp.1 x
    · simp only [hm, if_true] at he
      rcases List.mem_cons.mp he with rfl | he
      · obtain ⟨hnd, r, hr⟩ := h kp (by simp)
        exact ⟨addPath_nodup _ hnd, addPath_head _ hr⟩
      · exact h e (by simp [he])
    · simp only [hm, Bool.false_eq_true, if_false] at he
      rcases List.mem_cons.mp he with h1 | he2
      · rw [h1]
        exact h kp (by simp)
      · exact ih (fun f hf => h f (by simp [hf])) e he2

theorem upsert_persist {α : Type} (K : Keyed α) {m : PMap α} {e : α × List String} (x : α)
    (he : e ∈ m) : ∃ e2 ∈ upsert K m x, e2.1 = e.1 ∧ ∀ q ∈ e.2, q ∈ e2.2 := by
  induction m with
  | nil => cases he
  | cons kp rest ih =>
    rw [upsert]
    by_cases hm : keyMatch K kp.1 x
    · simp only [hm, if_true]
      rcases List.mem_cons.mp he with rfl | he
      · exact ⟨(e.1, addPath e.2 (K.pathOf x)), by simp, rfl,
          fun q hq => addPath_mem_mono _ hq⟩
      · exact ⟨e, by simp [he], rfl, fun q hq => hq⟩
    · simp only [hm, Bool.false_eq_true, if_false]
      rcases List.mem_cons.mp he with rfl | he
      · exact ⟨e, by simp, rfl, fun q hq => hq⟩
      · obtain ⟨e2, he2, hk, hp⟩ := ih he
        exact ⟨e2, by simp [he2], hk, hp⟩

theorem upsert_self_found {α : Type} (K : Keyed α) (m : PMap α) (x : α)
    (hx : K.eqb x x = true) :
    ∃ e ∈ upsert K m x, keyMatch K e.1 x = true ∧ K.pathOf x ∈ e.2 := by
  induction m with
  | nil =>
    refine ⟨(x, [K.pathOf x]), by simp [upsert], ?_, by simp⟩
    simp [keyMatch, hx]
  | cons kp rest ih =>
    rw [upsert]
    by_cases hm : keyMatch K kp.1 x
    · simp only [hm, if_true]
      exact ⟨(kp.1, addPath kp.2 (K.pathOf x)), by simp, hm, addPath_mem_self _ _⟩
    · simp only [hm, Bool.false_eq_true, if_false]
      obtain ⟨e, he, hk, hp⟩ := ih
      exact ⟨e, by simp [he], hk, hp⟩

theorem upsert_unique_match {α : Type} (K : Keyed α) {m : PMap α} {e : α × List String} {x : α}
    (he : e ∈ m) (hm : keyMatch K e.1 x = true)
    (hu : ∀ f ∈ m, keyMatch K f.1 x = true → f = e) :
    (e.1, addPath e.2 (K.pathOf x)) ∈ upsert K m x := by
  induction m with
  | nil => cases he
  | cons kp rest ih =>
    rw [upsert]
    by_cases hk : keyMatch K kp.1 x
    · simp only [hk, if_true]
      have : kp = e := hu kp (by simp) hk
      subst this
      simp
    · simp only [hk, Bool.false_eq_true, if_false]
      rcases List.mem_cons.mp he with rfl | he
      · exact absurd hm (by simp [hk])
      · exact List.mem_cons_of_mem _ (ih he (fun f hf hfx => hu f (by simp [hf]) hfx))

theorem foldlUpsert_noKeyClash {α : Type} (K : Keyed α) (xs : List α) (m : PMap α)
    (h : NoKeyClash K m) : NoKeyClash K (xs.foldl (upsert K) m) := by
  induction xs generalizing m with
  | nil => simpa using h
  | cons x t ih => exact ih (upsert K m x) (upsert_noKeyClash K x h)

theorem foldlUpsert_entryOk {α : Type} (K : Keyed α) (xs : List α) (m : PMap α)
    (h : ∀ e ∈ m, entryOk K e) : ∀ e ∈ xs.foldl (upsert K) m, entryOk K e := by
  induction xs generalizing m with
  | nil => simpa using h
  | cons x t ih => exact ih (upsert K m x) (upsert_entryOk K x h)

theorem foldlUpsert_keys {α : Type} (K : Keyed α) (xs : List α) (m : PMap α) :
    ∀ e ∈ xs.foldl (upsert K) m, e.1 ∈ mapKeys m ∨ e.1 ∈ xs := by
  induction xs generalizing m with
  | nil =>
    intro e he
    exact Or.inl (by simpa [mapKeys] using List.mem_map_of_mem (fun kp => kp.1) he)
  | cons x t ih =>
    intro e he
    rcases ih (upsert K m x) e he with hk | hk
    · rcases List.mem_map.mp hk with ⟨f, hf, hfe⟩
      rcases upsert_keys K m x f hf with h2 | h2
      · exact Or.inl (hfe ▸ h2)
      · exact Or.inr (by simp [← hfe, h2])
    · exact Or.inr (by simp [hk])

theorem foldlUpsert_paths_mono {α : Type} (K : Keyed α) (xs : List α) {m : PMap α} {q : String}
    (h : q ∈ mapPaths m) : q ∈ mapPaths (xs.foldl (upsert K) m) := by
  induction xs generalizing m with
  | nil => simpa using h
  | cons x t ih => exact ih (upsert_paths_mono K x h)

theorem foldlUpsert_pathOf_mem {α : Type} (K : Keyed α) {xs : List α} {x : α} (m : PMap α)
    (h : x ∈ xs) : K.pathOf x ∈ mapPaths (xs.foldl (upsert K) m) := by
  induction xs generalizing m with
  | nil => cases h
  | cons y t ih =>
    rcases List.mem_cons.mp h with rfl | h
    · exact foldlUpsert_paths_mono K t (upsert_pathOf_mem K m x)
    · exact ih (upsert K m y) h

theorem foldlUpsert_persist {α : Type} (K : Keyed α) (xs : List α) {m : PMap α}
    {e : α × List String} (he : e ∈ m) :
    ∃ e2 ∈ xs.foldl (upsert K) m, e2.1 = e.1 ∧ ∀ q ∈ e.2, q ∈ e2.2 := by
  induction xs generalizing m e with
  | nil => exact ⟨e, by simpa using he, rfl, fun q hq => hq⟩
  | cons x t ih =>
    obtain ⟨e1, he1, hk1, hp1⟩ := upsert_persist K x he
    obtain ⟨e2, he2, hk2, hp2⟩ := ih he1
    exact ⟨e2, he2, hk2.trans hk1, fun q hq => hp2 q (hp1 q hq)⟩

theorem upsertSet_keys {α : Type} (K : Keyed α) (m : PMap α) (x : α) (new : List String) :
    ∀ e ∈ upsertSet K m x new, e.1 ∈ mapKeys m ∨ e.1 = x := by
  induction m with
  | nil =>
    intro e he
    simp only [upsertSet, List.mem_singleton] at he
    subst he
    exact Or.inr rfl
  | cons kp rest ih =>
    intro e he
    rw [upsertSet] at he
    by_cases h : keyMatch K kp.1 x
    · simp only [h, if_true] at he
      rcases List.mem_cons.mp he with h1 | he
      · exact Or.inl (by rw [h1]; simp [mapKeys])
      · exact Or.inl (by simp [mapKeys]; exact Or.inr ⟨e.2, by simpa using he⟩)
    · simp only [h, Bool.false_eq_true, if_false] at he
      rcases List.mem_cons.mp he with h1 | he
      · exact Or.inl (by rw [h1]; simp [mapKeys])
      · rcases ih e he with hk | hk
        · exact Or.inl (by simp [mapKeys] at hk ⊢; tauto)
        · exact Or.inr hk

theorem upsertSet_noKeyClash {α : Type} (K : Keyed α) {m : PMap α} (x : α) (new : List String)
    (h : NoKeyClash K m) : NoKeyClash K (upsertSet K m x new) := by
  induction m with
  | nil => simp [upsertSet, NoKeyClash]
  | cons kp rest ih =>
    rw [upsertSet]
    rw [NoKeyClash, List.pairwise_cons] at h
    by_cases hm : keyMatch K kp.1 x
    · simp only [hm, if_true]
      rw [NoKeyClash, List.pairwise_cons]
      exact ⟨h.1, h.2⟩
    · simp only [hm, Bool.false_eq_true, if_false]
      rw [NoKeyClash, List.pairwise_cons]
      refine ⟨?_, ih h.2⟩
      intro e he
      rcases upsertSet_keys K rest x new e he with hk | hk
      · rcases List.mem_map.mp hk with ⟨f, hf, hfe⟩
        have := h.1 f hf
        rw [hfe] at this
        exact this
      · rw [hk]
        exact eq_false_of_ne_true hm

theorem upsertSet_entryOk {α : Type} (K : Keyed α) {m : PMap α} {x : α} {new : List String}
    (h : ∀ e ∈ m, entryOk K e) (hnew : entryOk K (x, new)) :
    ∀ e ∈ upsertSet K m x new, entryOk K e := by
  induction m with
  | nil =>
    intro e he
    simp only [upsertSet, List.mem_singleton] at he
    subst he
    exact hnew
  | cons kp rest ih =>
    intro e he
    rw [upsertSet] at he
    by_cases hm : keyMatch K kp.1 x
    · simp only [hm, if_true] at he
      rcases List.mem_cons.mp he with h1 | he
      · rw [h1]
        obtain ⟨hnd, r, hr⟩ := h kp (by simp)
        exact ⟨addPaths_nodup _ hnd, addPaths_head _ hr⟩
      · exact h e (by simp [he])
    · simp only [hm, Bool.false_eq_true, if_false] at he
      rcases List.mem_cons.mp he with h1 | he
      · rw [h1]
        exact h kp (by simp)
      · exact ih (fun f hf => h f (by simp [hf])) e he

theorem upsertSet_paths_mono {α : Type} (K : Keyed α) {m : PMap α} {q : String} (x : α)
    (new : List String) (h : q ∈ mapPaths m) : q ∈ mapPaths (upsertSet K m x new) := by
  induction m with
  | nil => cases h
  | cons kp rest ih =>
    rw [upsertSet]
    by_cases hm : keyMatch K kp.1 x
    · simp only [hm, if_true, mapPaths, List.mem_append] at h ⊢
      rcases h with h | h
      · exact Or.inl (addPaths_mem_left _ h)
      · exact Or.inr h
    · simp only [hm, Bool.false_eq_true, if_false, mapPaths, List.mem_append] at h ⊢
      rcases h with h | h
      · exact Or.inl h
      · exact Or.inr (ih h)

theorem upsertSet_paths_new {α : Type} (K : Keyed α) (m : PMap α) (x : α) {new : List String}
    {q : String} (h : q ∈ new) : q ∈ mapPaths (upsertSet K m x new) := by
  induction m with
  | nil => simp [upsertSet, mapPaths, h]
  | cons kp rest ih =>
    rw [upsertSet]
    by_cases hm : keyMatch K kp.1 x
    · simp only [hm, if_true, mapPaths, List.mem_append]
      exact Or.inl (addPaths_mem_right _ h)
    · simp only [hm, Bool.false_eq_true, if_false, mapPaths, List.mem_append]
      exact Or.inr ih

theorem assignKey_keys {α : Type} (K : Keyed α) (m : PMap α) (x : α) (new : List String) :
    ∀ e ∈ assignKey K m x new, e.1 ∈ mapKeys m ∨ e.1 = x := by
  induction m with
  | nil =>
    intro e he
    simp only [assignKey, List.mem_singleton] at he
    subst he
    exact Or.inr rfl
  | cons kp rest ih =>
    intro e he
    rw [assignKey] at he
    by_cases h : keyMatch K kp.1 x
    · simp only [h, if_true] at he
      rcases List.mem_cons.mp he with h1 | he
      · exact Or.inl (by rw [h1]; simp [mapKeys])
      · exact Or.inl (by simp [mapKeys]; exact Or.inr ⟨e.2, by simpa using he⟩)
    · simp only [h, Bool.false_eq_true, if_false] at he
      rcases List.mem_cons.mp he with h1 | he
      · exact Or.inl (by rw [h1]; simp [mapKeys])
      · rcases ih e he with hk | hk
        · exact Or.inl (by simp [mapKeys] at hk ⊢; tauto)
        · exact Or.inr hk

theorem assignKey_of_no_match {α : Type} (K : Keyed α) {m : PMap α} {x : α} (new : List String)
    (h : ∀ e ∈ m, keyMatch K e.1 x = false) : assignKey K m x new = m ++ [(x, new)] := by
  induction m with
  | nil => simp [assignKey]
  | cons kp rest ih =>
    rw [assignKey]
    have hk : keyMatch K kp.1 x = false := h kp (by simp)
    simp only [hk, Bool.false_eq_true, if_false, List.cons_append, List.cons.injEq, true_and]
    exact ih (fun e he => h e (by simp [he]))

theorem assignFold_id {α : Type} (K : Keyed α) (l acc : PMap α)
    (h : NoKeyClash K (acc ++ l)) :
    l.foldl (fun a kp => assignKey K a kp.1 kp.2) acc = acc ++ l := by
  induction l generalizing acc with
  | nil => simp
  | cons kp t ih =>
    simp only [List.foldl_cons]
    have hno : ∀ e ∈ acc, keyMatch K e.1 kp.1 = false := by
      intro e he
      have := (List.pairwise_append.mp h).2.2 e he kp (by simp)
      exact this
    rw [assignKey_of_no_match K kp.2 hno]
    have hre : acc ++ kp :: t = (acc ++ [(kp.1, kp.2)]) ++ t := by simp
    rw [hre] at h
    have := ih (acc ++ [(kp.1, kp.2)]) h
    rw [this]
    simp

theorem assignKey_noKeyClash {α : Type} (K : Keyed α) {m : PMap α} (x : α) (new : List String)
    (h : NoKeyClash K m) : NoKeyClash K (assignKey K m x new) := by
  induction m with
  | nil => simp [assignKey, NoKeyClash]
  | cons kp rest ih =>
    rw [assignKey]
    rw [NoKeyClash, List.pairwise_cons] at h
    by_cases hm : keyMatch K kp.1 x
    · simp only [hm, if_true]
      rw [NoKeyClash, List.pairwise_cons]
      exact ⟨h.1, h.2⟩
    · simp only [hm, Bool.false_eq_true, if_false]
      rw [NoKeyClash, List.pairwise_cons]
      refine ⟨?_, ih h.2⟩
      intro e he
      rcases assignKey_keys K rest x new e he with hk | hk
      · rcases List.mem_map.mp hk with ⟨f, hf, hfe⟩
        have := h.1 f hf
        rw [hfe] at this
        exact this
      · rw [hk]
        exact eq_false_of_ne_true hm

theorem foldlAssign_noKeyClash {α : Type} (K : Keyed α) (l : PMap α) (acc : PMap α)
    (h : NoKeyClash K acc) :
    NoKeyClash K (l.foldl (fun a kp => assignKey K a kp.1 kp.2) acc) := by
  induction l generalizing acc with
  | nil => simpa using h
  | cons kp t ih => exact ih _ (assignKey_noKeyClash K kp.1 kp.2 h)

theorem foldlAssign_keys {α : Type} (K : Keyed α) (l : PMap α) (acc : PMap α) :
    ∀ e ∈ l.foldl (fun a kp => assignKey K a kp.1 kp.2) acc,
      e.1 ∈ mapKeys acc ∨ e.1 ∈ mapKeys l := by
  induction l generalizing acc with
  | nil =>
    intro e he
    exact Or.inl (by simpa [mapKeys] using List.mem_map_of_mem (fun kp => kp.1) he)
  | cons kp t ih =>
    intro e he
    rcases ih (assignKey K acc kp.1 kp.2) e he with hk | hk
    · rcases List.mem_map.mp hk with ⟨f, hf, hfe⟩
      rcases assignKey_keys K acc kp.1 kp.2 f hf with h2 | h2
      · exact Or.inl (hfe ▸ h2)
      · exact Or.inr (by simp [mapKeys, ← hfe, h2])
    · exact Or.inr (by simp [mapKeys] at hk ⊢; tauto)

theorem foldlUpsertSet_noKeyClash {α : Type} (K : Keyed α) (l : PMap α) (acc : PMap α)
    (h : NoKeyClash K acc) :
    NoKeyClash K (l.foldl (fun a kp => upsertSet K a kp.1 kp.2) acc) := by
  induction l generalizing acc with
  | nil => simpa using h
  | cons kp t ih => exact ih _ (upsertSet_noKeyClash K kp.1 kp.2 h)

theorem foldlUpsertSet_entryOk {α : Type} (K : Keyed α) (l : PMap α) (acc : PMap α)
    (h : ∀ e ∈ acc, entryOk K e) (hl : ∀ e ∈ l, entryOk K e) :
    ∀ e ∈ l.foldl (fun a kp => upsertSet K a kp.1 kp.2) acc, entryOk K e := by
  induction l generalizing acc with
  | nil => simpa using h
  | cons kp t ih =>
    refine ih _ ?_ (fun e he => hl e (by simp [he]))
    exact upsertSet_entryOk K h (by simpa using hl kp (by simp))

theorem foldlUpsertSet_keys {α : Type} (K : Keyed α) (l : PMap α) (acc : PMap α) :
    ∀ e ∈ l.foldl (fun a kp => upsertSet K a kp.1 kp.2) acc,
      e.1 ∈ mapKeys acc ∨ e.1 ∈ mapKeys l := by
  induction l generalizing acc with
  | nil =>
    intro e he
    exact Or.inl (by simpa [mapKeys] using List.mem_map_of_mem (fun kp => kp.1) he)
  | cons kp t ih =>
    intro e he
    rcases ih (upsertSet K acc kp.1 kp.2) e he with hk | hk
    · rcases List.mem_map.mp hk with ⟨f, hf, hfe⟩
      rcases upsertSet_keys K acc kp.1 kp.2 f hf with h2 | h2
      · exact Or.inl (hfe ▸ h2)
      · exact Or.inr (by simp [mapKeys, ← hfe, h2])
    · exact Or.inr (by simp [mapKeys] at hk ⊢; tauto)

theorem foldlUpsertSet_paths_mono {α : Type} (K : Keyed α) (l : PMap α) {acc : PMap α}
    {q : String} (h : q ∈ mapPaths acc) :
    q ∈ mapPaths (l.foldl (fun a kp => upsertSet K a kp.1 kp.2) acc) := by
  induction l generalizing acc with
  | nil => simpa using h
  | cons kp t ih => exact ih (upsertSet_paths_mono K kp.1 kp.2 h)

theorem foldlUpsertSet_paths_new {α : Type} (K : Keyed α) {l : PMap α} (acc : PMap α)
    {kp : α × List String} {q : String} (hkp : kp ∈ l) (hq : q ∈ kp.2) :
    q ∈ mapPaths (l.foldl (fun a kp => upsertSet K a kp.1 kp.2) acc) := by
  induction l generalizing acc with
  | nil => cases hkp
  | cons f t ih =>
    rcases List.mem_cons.mp hkp with rfl | hkp
    · exact foldlUpsertSet_paths_mono K t (upsertSet_paths_new K acc kp.1 hq)
    · exact ih (upsertSet K acc f.1 f.2) hkp

theorem mapPaths_mem_iff {α : Type} (m : PMap α) (q : String) :
    q ∈ mapPaths m ↔ ∃ kp ∈ m, q ∈ kp.2 := by
  induction m with
  | nil => simp [mapPaths]
  | cons kp rest ih =>
    simp only [mapPaths, List.mem_append, ih, List.mem_cons]
    constructor
    · rintro (h | ⟨f, hf, hq⟩)
      · exact ⟨kp, Or.inl rfl, h⟩
      · exact ⟨f, Or.inr hf, hq⟩
    · rintro ⟨f, hf | hf, hq⟩
      · exact Or.inl (hf ▸ hq)
      · exact Or.inr ⟨f, hf, hq⟩

theorem entry_singleton_of_not_dup {α : Type} (K : Keyed α) {kp : α × List String}
    (h : entryOk K kp) (hlen : ¬ 1 < kp.2.length) : kp.2 = [K.pathOf kp.1] := by
  obtain ⟨_, rest, hr⟩ := h
  rw [hr] at hlen ⊢
  cases rest with
  | nil => rfl
  | cons a t => exact absurd (by simp) hlen

theorem splitGroups_dups_mem {α : Type} (m : PMap α) (kp : α × List String) :
    kp ∈ (splitGroups m).2 ↔ kp ∈ m ∧ 1 < kp.2.length := by
  simp [splitGroups, List.mem_filter]

theorem splitGroups_uniques_mem {α : Type} (m : PMap α) (u : α) :
    u ∈ (splitGroups m).1 ↔ ∃ kp ∈ m, kp.1 = u ∧ ¬ 1 < kp.2.length := by
  simp only [splitGroups, List.mem_map, List.mem_filter]
  constructor
  · rintro ⟨kp, ⟨hm, hlen⟩, hu⟩
    exact ⟨kp, hm, hu, by simpa using hlen⟩
  · rintro ⟨kp, hm, hu, hlen⟩
    exact ⟨kp, ⟨hm, by simpa using hlen⟩, hu⟩

theorem splitGroups_paths_cover {α : Type} (K : Keyed α) {m : PMap α}
    (hok : ∀ e ∈ m, entryOk K e) {q : String} (hq : q ∈ mapPaths m) :
    q ∈ (splitGroups m).1.map K.pathOf ∨ q ∈ mapPaths (splitGroups m).2 := by
  obtain ⟨kp, hkp, hq2⟩ := (mapPaths_mem_iff m q).mp hq
  by_cases hlen : 1 < kp.2.length
  · right
    rw [mapPaths_mem_iff]
    exact ⟨kp, (splitGroups_dups_mem m kp).mpr ⟨hkp, hlen⟩, hq2⟩
  · left
    have hsing := entry_singleton_of_not_dup K (hok kp hkp) hlen
    rw [hsing] at hq2
    rcases List.mem_singleton.mp hq2 with rfl
    exact List.mem_map_of_mem K.pathOf
      ((splitGroups_uniques_mem m kp.1).mpr ⟨kp, hkp, rfl, hlen⟩)

theorem groupFiles_noKeyClash {α : Type} (K : Keyed α) (imgs : List α) :
    NoKeyClash K (groupFiles K imgs) :=
  foldlUpsert_noKeyClash K imgs [] (by simp [NoKeyClash])

theorem groupFiles_entryOk {α : Type} (K : Keyed α) (imgs : List α) :
    ∀ e ∈ groupFiles K imgs, entryOk K e :=
  foldlUpsert_entryOk K imgs [] (by simp)

theorem groupFiles_keys {α : Type} (K : Keyed α) (imgs : List α) :
    ∀ e ∈ groupFiles K imgs, e.1 ∈ imgs := by
  intro e he
  rcases foldlUpsert_keys K imgs [] e he with hk | hk
  · simp [mapKeys] at hk
  · exact hk

theorem groupFiles_pathOf_mem {α : Type} (K : Keyed α) {imgs : List α} {x : α} (h : x ∈ imgs) :
    K.pathOf x ∈ mapPaths (groupFiles K imgs) :=
  foldlUpsert_pathOf_mem K [] h

theorem find_duplicates_eq (useCk : Bool) (exts : List String) (files : List FsFile) :
    find_duplicates useCk exts files =
      splitGroups (groupFiles (modeKeyed useCk) (probedImages useCk exts files)) := rfl

theorem aggregate_uniques_mem (K : Keyed PyImage) (rs : List (List PyImage × PMap PyImage))
    (acc : List PyImage × PMap PyImage) (u : PyImage) :
    u ∈ (rs.foldl (aggregateFolder K) acc).1 ↔ u ∈ acc.1 ∨ ∃ r ∈ rs, u ∈ r.1 := by
  induction rs generalizing acc with
  | nil => simp
  | cons r t ih =>
    simp only [List.foldl_cons, ih, aggregateFolder, List.mem_append, List.mem_cons]
    constructor
    · rintro ((h | h) | ⟨f, hf, hu⟩)
      · exact Or.inl h
      · exact Or.inr ⟨r, Or.inl rfl, h⟩
      · exact Or.inr ⟨f, Or.inr hf, hu⟩
    · rintro (h | ⟨f, hf | hf, hu⟩)
      · exact Or.inl (Or.inl h)
      · exact Or.inl (Or.inr (hf ▸ hu))
      · exact Or.inr ⟨f, hf, hu⟩

theorem aggregate_dups_noKeyClash (K : Keyed PyImage) (rs : List (List PyImage × PMap PyImage))
    (acc : List PyImage × PMap PyImage) (h : NoKeyClash K acc.2) :
    NoKeyClash K (rs.foldl (aggregateFolder K) acc).2 := by
  induction rs generalizing acc with
  | nil => simpa using h
  | cons r t ih =>
    exact ih (aggregateFolder K acc r) (foldlUpsertSet_noKeyClash K r.2 acc.2 h)

theorem aggregate_dups_entryOk (K : Keyed PyImage) (rs : List (List PyImage × PMap PyImage))
    (acc : List PyImage × PMap PyImage) (h : ∀ e ∈ acc.2, entryOk K e)
    (hrs : ∀ r ∈ rs, ∀ e ∈ r.2, entryOk K e) :
    ∀ e ∈ (rs.foldl (aggregateFolder K) acc).2, entryOk K e := by
  induction rs generalizing acc with
  | nil => simpa using h
  | cons r t ih =>
    refine ih (aggregateFolder K acc r) ?_ (fun f hf => hrs f (by simp [hf]))
    exact foldlUpsertSet_entryOk K r.2 acc.2 h (hrs r (by simp))

theorem aggregate_dups_keys (K : Keyed PyImage) (rs : List (List PyImage × PMap PyImage))
    (acc : List PyImage × PMap PyImage) :
    ∀ e ∈ (rs.foldl (aggregateFolder K) acc).2,
      e.1 ∈ mapKeys acc.2 ∨ ∃ r ∈ rs, e.1 ∈ mapKeys r.2 := by
  induction rs generalizing acc with
  | nil =>
    intro e he
    exact Or.inl (by simpa [mapKeys] using List.mem_map_of_mem (fun kp => kp.1) he)
  | cons r t ih =>
    intro e he
    rcases ih (aggregateFolder K acc r) e he with hk | ⟨f, hf, hkf⟩
    · rcases List.mem_map.mp hk with ⟨g, hg, hge⟩
      rcases foldlUpsertSet_keys K r.2 acc.2 g hg with h2 | h2
      · exact Or.inl (hge ▸ h2)
      · exact Or.inr ⟨r, by simp, hge ▸ h2⟩
    · exact Or.inr ⟨f, by simp [hf], hkf⟩

theorem aggregate_dups_paths_mono (K : Keyed PyImage) (rs : List (List PyImage × PMap PyImage))
    {acc : List PyImage × PMap PyImage} {q : String} (h : q ∈ mapPaths acc.2) :
    q ∈ mapPaths (rs.foldl (aggregateFolder K) acc).2 := by
  induction rs generalizing acc with
  | nil => simpa using h
  | cons r t ih => exact ih (foldlUpsertSet_paths_mono K r.2 h)

theorem aggregate_dups_paths_new (K : Keyed PyImage) {rs : List (List PyImage × PMap PyImage)}
    (acc : List PyImage × PMap PyImage) {r : List PyImage × PMap PyImage}
    {kp : PyImage × List String} {q : String} (hr : r ∈ rs) (hkp : kp ∈ r.2) (hq : q ∈ kp.2) :
    q ∈ mapPaths (rs.foldl (aggregateFolder K) acc).2 := by
  induction rs generalizing acc with
  | nil => cases hr
  | cons r0 t ih =>
    rcases List.mem_cons.mp hr with rfl | hr
    · simp only [List.foldl_cons]
      exact aggregate_dups_paths_mono K t (foldlUpsertSet_paths_new K acc.2 hkp hq)
    · exact ih (aggregateFolder K acc r0) hr

theorem mergeImageMap_noKeyClash {α : Type} (K : Keyed α) (au : List α) (ad : PMap α) :
    NoKeyClash K (mergeImageMap K au ad) :=
  foldlUpsert_noKeyClash K au _ (foldlAssign_noKeyClash K ad [] (by simp [NoKeyClash]))

theorem mergeImageMap_keys {α : Type} (K : Keyed α) (au : List α) (ad : PMap α) :
    ∀ e ∈ mergeImageMap K au ad, e.1 ∈ mapKeys ad ∨ e.1 ∈ au := by
  intro e he
  rcases foldlUpsert_keys K au _ e he with hk | hk
  · rcases List.mem_map.mp hk with ⟨f, hf, hfe⟩
    rcases foldlAssign_keys K ad [] f hf with h2 | h2
    · simp [mapKeys] at h2
    · exact Or.inl (hfe ▸ h2)
  · exact Or.inr hk

theorem mergeImageMap_pipeline {α : Type} (K : Keyed α) (au : List α) {ad : PMap α}
    (had : NoKeyClash K ad) : mergeImageMap K au ad = au.foldl (upsert K) ad := by
  unfold mergeImageMap
  rw [assignFold_id K ad [] (by simpa using had)]
  simp

theorem mergeImageMap_entryOk {α : Type} (K : Keyed α) (au : List α) {ad : PMap α}
    (had : NoKeyClash K ad) (hok : ∀ e ∈ ad, entryOk K e) :
    ∀ e ∈ mergeImageMap K au ad, entryOk K e := by
  rw [mergeImageMap_pipeline K au had]
  exact foldlUpsert_entryOk K au ad hok

theorem mergeImageMap_paths_ad {α : Type} (K : Keyed α) (au : List α) {ad : PMap α}
    {q : String} (had : NoKeyClash K ad) (h : q ∈ mapPaths ad) :
    q ∈ mapPaths (mergeImageMap K au ad) := by
  rw [mergeImageMap_pipeline K au had]
  exact foldlUpsert_paths_mono K au h

theorem mergeImageMap_pathOf_unique {α : Type} (K : Keyed α) {au : List α} {u : α}
    (ad : PMap α) (h : u ∈ au) : K.pathOf u ∈ mapPaths (mergeImageMap K au ad) :=
  foldlUpsert_pathOf_mem K _ h

theorem noKeyClash_distinct_entries {α : Type} (K : Keyed α) {m : PMap α}
    (h : NoKeyClash K m) {e1 e2 : α × List String} (h1 : e1 ∈ m) (h2 : e2 ∈ m)
    (hne : e1 ≠ e2) :
    keyMatch K e1.1 e2.1 = false ∨ keyMatch K e2.1 e1.1 = false := by
  have hsymm : Symmetric (fun a b : α × List String =>
      keyMatch K a.1 b.1 = false ∨ keyMatch K b.1 a.1 = false) := by
    intro a b hab
    exact hab.symm
  have hp : m.Pairwise (fun a b =>
      keyMatch K a.1 b.1 = false ∨ keyMatch K b.1 a.1 = false) :=
    List.Pairwise.imp (fun hab => Or.inl hab) h
  exact hp.forall hsymm h1 h2 hne

theorem modeKeyed_pathOf (useCk : Bool) : (modeKeyed useCk).pathOf = PyImage.path := by
  cases useCk <;> rfl

theorem scanPool_mem {useCk : Bool} {exts : List String} {fss : List (List FsFile)}
    {fs : List FsFile} {x : PyImage} (hfs : fs ∈ fss) (hx : x ∈ probedImages useCk exts fs) :
    x ∈ scanPool useCk exts fss := by
  induction fss with
  | nil => cases hfs
  | cons fs0 t ih =>
    rcases List.mem_cons.mp hfs with rfl | hfs
    · simp [scanPool, hx]
    · simp [scanPool, ih hfs]

theorem folder_uniques_probed {useCk : Bool} {exts : List String} {fs : List FsFile}
    {u : PyImage} (h : u ∈ (find_duplicates useCk exts fs).1) :
    u ∈ probedImages useCk exts fs := by
  rw [find_duplicates_eq] at h
  obtain ⟨kp, hkp, hu, _⟩ := (splitGroups_uniques_mem _ u).mp h
  exact hu ▸ groupFiles_keys _ _ kp hkp

theorem folder_dupkeys_probed {useCk : Bool} {exts : List String} {fs : List FsFile}
    {e : PyImage × List String} (h : e ∈ (find_duplicates useCk exts fs).2) :
    e.1 ∈ probedImages useCk exts fs := by
  rw [find_duplicates_eq] at h
  exact groupFiles_keys _ _ e ((splitGroups_dups_mem _ e).mp h).1

theorem folder_dups_entryOk {useCk : Bool} {exts : List String} {fs : List FsFile}
    {e : PyImage × List String} (h : e ∈ (find_duplicates useCk exts fs).2) :
    entryOk (modeKeyed useCk) e := by
  rw [find_duplicates_eq] at h
  exact groupFiles_entryOk _ _ e ((splitGroups_dups_mem _ e).mp h).1

theorem serviceScan_ok_eq (folders : List (String × List FsFile)) (ext : ExtArg) (useCk : Bool) :
    serviceScan folders ext useCk none none = Except.ok
      { uniques := (mergeFolderResults (modeKeyed useCk)
          (aggregateResults (modeKeyed useCk)
            ((folders.map (fun fo => fo.2)).map (find_duplicates useCk (normalizeExt ext)))).1
          (aggregateResults (modeKeyed useCk)
            ((folders.map (fun fo => fo.2)).map (find_duplicates useCk (normalizeExt ext)))).2).1,
        duplicates := (mergeFolderResults (modeKeyed useCk)
          (aggregateResults (modeKeyed useCk)
            ((folders.map (fun fo => fo.2)).map (find_duplicates useCk (normalizeExt ext)))).1
          (aggregateResults (modeKeyed useCk)
            ((folders.map (fun fo => fo.2)).map (find_duplicates useCk (normalizeExt ext)))).2).2,
        scanned_paths := folders.map (fun fo => fo.1),
        extension := String.intercalate ", " (normalizeExt ext),
        detection_mode := if useCk then "checksum" else "metadata" } := rfl

/-- C8 amended: for every completed scan whose identities respect the
hash law and equality symmetry on the scanned material (always true in
checksum mode with actual digests), no identity appears by identity
equality in both the uniques and the duplicate keys; unconditionally,
every duplicate group holds at least two distinct paths and every unique
entered the merge map with exactly its own path. -/
theorem c8_scan_result_invariants (folders : List (String × List FsFile)) (ext : ExtArg)
    (useCk : Bool)
    (hlaw : ∀ a ∈ scanPool useCk (normalizeExt ext) (folders.map (fun fo => fo.2)),
      ∀ b ∈ scanPool useCk (normalizeExt ext) (folders.map (fun fo => fo.2)),
      (modeKeyed useCk).eqb a b = true → (modeKeyed useCk).hkey a = (modeKeyed useCk).hkey b)
    (hsym : ∀ a ∈ scanPool useCk (normalizeExt ext) (folders.map (fun fo => fo.2)),
      ∀ b ∈ scanPool useCk (normalizeExt ext) (folders.map (fun fo => fo.2)),
      (modeKeyed useCk).eqb a b = (modeKeyed useCk).eqb b a) :
    ∀ r, serviceScan folders ext useCk none none = Except.ok r →
      (∀ u ∈ r.uniques, ∀ kp ∈ r.duplicates,
        (modeKeyed useCk).eqb u kp.1 = false ∧ (modeKeyed useCk).eqb kp.1 u = false) ∧
      (∀ kp ∈ r.duplicates, 2 ≤ kp.2.length ∧ kp.2.Nodup) ∧
      (∀ u ∈ r.uniques, (u, [u.path]) ∈ mergeImageMap (modeKeyed useCk)
        (aggregateResults (modeKeyed useCk)
          ((folders.map (fun fo => fo.2)).map (find_duplicates useCk (normalizeExt ext)))).1
        (aggregateResults (modeKeyed useCk)
          ((folders.map (fun fo => fo.2)).map (find_duplicates useCk (normalizeExt ext)))).2) := by
  intro r hr
  rw [serviceScan_ok_eq] at hr
  injection hr with hr
  subst hr
  set K := modeKeyed useCk with hK
  set exts := normalizeExt ext with hexts
  set fss := folders.map (fun fo => fo.2) with hfss
  set rsf := fss.map (find_duplicates useCk exts) with hrsf
  set A := aggregateResults K rsf with hA
  set M := mergeImageMap K A.1 A.2 with hM
  have hd_ok : ∀ e ∈ A.2, entryOk K e := by
    refine aggregate_dups_entryOk K rsf ([], []) (by simp) ?_
    intro rr hrr e he
    rcases List.mem_map.mp hrr with ⟨fs, _, rfl⟩
    exact folder_dups_entryOk he
  have hd_nkc : NoKeyClash K A.2 :=
    aggregate_dups_noKeyClash K rsf ([], []) (by simp [NoKeyClash])
  have hm_nkc : NoKeyClash K M := mergeImageMap_noKeyClash K A.1 A.2
  have hm_ok : ∀ e ∈ M, entryOk K e := mergeImageMap_entryOk K A.1 hd_nkc hd_ok
  have hpool : ∀ e ∈ M, e.1 ∈ scanPool useCk exts fss := by
    intro e he
    rcases mergeImageMap_keys K A.1 A.2 e he with hk | hk
    · rcases List.mem_map.mp hk with ⟨f, hf, hfe⟩
      rcases aggregate_dups_keys K rsf ([], []) f hf with h2 | ⟨rr, hrr, hkf⟩
      · simp [mapKeys] at h2
      · rcases List.mem_map.mp hrr with ⟨fs, hfs, rfl⟩
        rcases List.mem_map.mp hkf with ⟨g, hg, hge⟩
        exact hfe ▸ hge ▸ scanPool_mem hfs (folder_dupkeys_probed hg)
    · rcases (aggregate_uniques_mem K rsf ([], []) e.1).mp hk with h2 | ⟨rr, hrr, hu⟩
      · simp at h2
      · rcases List.mem_map.mp hrr with ⟨fs, hfs, rfl⟩
        exact scanPool_mem hfs (folder_uniques_probed hu)
  have hsplit : mergeFolderResults K A.1 A.2 = splitGroups M := rfl
  refine ⟨?_, ?_, ?_⟩
  · intro u hu kp hkp
    simp only [hsplit] at hu hkp
    obtain ⟨⟨k1, ps1⟩, hmem, hk1, hlen1⟩ := (splitGroups_uniques_mem M u).mp hu
    simp only [] at hk1
    subst hk1
    have hkp2 := (splitGroups_dups_mem M kp).mp hkp
    have hne : ((k1, ps1) : PyImage × List String) ≠ kp := by
      intro h
      rw [h] at hlen1
      exact hlen1 hkp2.2
    have hdis := noKeyClash_distinct_entries K hm_nkc hmem hkp2.1 hne
    have hup : k1 ∈ scanPool useCk exts fss := hpool (k1, ps1) hmem
    have hdp : kp.1 ∈ scanPool useCk exts fss := hpool kp hkp2.1
    have main : K.eqb k1 kp.1 = true → False := by
      intro hequ
      have hh : K.hkey k1 = K.hkey kp.1 := hlaw k1 hup kp.1 hdp hequ
      have hequ2 : K.eqb kp.1 k1 = true := by
        rw [hsym kp.1 hdp k1 hup]
        exact hequ
      have km1 : keyMatch K k1 kp.1 = true := by simp [keyMatch, hh, hequ]
      have km2 : keyMatch K kp.1 k1 = true := by simp [keyMatch, hh, hequ2]
      rcases hdis with h | h
      · rw [km1] at h
        cases h
      · rw [km2] at h
        cases h
    have h1 : K.eqb k1 kp.1 = false := eq_false_of_ne_true main
    refine ⟨h1, ?_⟩
    rw [hsym kp.1 hdp k1 hup]
    exact h1
  · intro kp hkp
    simp only [hsplit] at hkp
    have h2 := (splitGroups_dups_mem M kp).mp hkp
    exact ⟨by omega, (hm_ok kp h2.1).1⟩
  · intro u hu
    simp only [hsplit] at hu
    obtain ⟨⟨k1, ps1⟩, hmem, hk1, hlen1⟩ := (splitGroups_uniques_mem M u).mp hu
    simp only [] at hk1
    subst hk1
    have hsing := entry_singleton_of_not_dup K (hm_ok (k1, ps1) hmem) hlen1
    simp only [] at hsing
    rw [modeKeyed_pathOf] at hsing
    rw [← hsing]
    exact hmem

/-- C8 counterexample: in metadata mode, a completed scan can place two
identities that compare equal on both sides of the partition.  One root
holds `a.jpg` and two copies of `b.jpg` content, all with the same EXIF
date and size: the `b.jpg` pair forms a duplicate group whose key
compares equal to the unique `a.jpg` identity (EXIF branch ignores the
filename their hashes differ on). -/
theorem c8_no_overlap_counterexample :
    ∃ r, serviceScan
        [("/A", [{ absPath := "/A/a.jpg", name := "a.jpg", mtime := 1, size := 100,
                   isImage := true, exif := some "2020:01:01 00:00:00" },
                 { absPath := "/A/s1/b.jpg", name := "b.jpg", mtime := 2, size := 100,
                   isImage := true, exif := some "2020:01:01 00:00:00" },
                 { absPath := "/A/s2/b.jpg", name := "b.jpg", mtime := 3, size := 100,
                   isImage := true, exif := some "2020:01:01 00:00:00" }])]
        (ExtArg.single "jpg") false none none = Except.ok r ∧
      ∃ u ∈ r.uniques, ∃ kp ∈ r.duplicates, metaEq u kp.1 = true ∧ metaEq kp.1 u = true := by
  refine ⟨_, rfl, ?_⟩
  decide

/-- C8 witness: the amended invariants applied to a concrete checksum-mode
scan with one unique and one cross-folder duplicate group. -/
theorem c8_scan_result_invariants_witness :
    ((modeKeyed true).eqb
        { path := "/A/u.jpg", date := some 1, size := some 50, filename := some "u.jpg",
          exif_date := none, checksum := some "Y" }
        { path := "/A/d1.jpg", date := some 2, size := some 100, filename := some "d1.jpg",
          exif_date := none, checksum := some "X" } = false ∧
      (modeKeyed true).eqb
        { path := "/A/d1.jpg", date := some 2, size := some 100, filename := some "d1.jpg",
          exif_date := none, checksum := some "X" }
        { path := "/A/u.jpg", date := some 1, size := some 50, filename := some "u.jpg",
          exif_date := none, checksum := some "Y" } = false) ∧
    (2 ≤ (["/A/d1.jpg", "/B/d2.jpg"] : List String).length ∧
      (["/A/d1.jpg", "/B/d2.jpg"] : List String).Nodup) := by
  have h := c8_scan_result_invariants
    [("/A", [{ absPath := "/A/u.jpg", name := "u.jpg", mtime := 1, size := 50,
               isImage := true, md5 := some "Y" },
             { absPath := "/A/d1.jpg", name := "d1.jpg", mtime := 2, size := 100,
               isImage := true, md5 := some "X" }]),
     ("/B", [{ absPath := "/B/d2.jpg", name := "d2.jpg", mtime := 3, size := 100,
               isImage := true, md5 := some "X" }])]
    (ExtArg.single "jpg") true (by decide) (by decide)
    { uniques := [{ path := "/A/u.jpg", date := some 1, size := some 50,
                    filename := some "u.jpg", exif_date := none, checksum := some "Y" }],
      duplicates := [({ path := "/A/d1.jpg", date := some 2, size := some 100,
                        filename := some "d1.jpg", exif_date := none, checksum := some "X" },
                      ["/A/d1.jpg", "/B/d2.jpg"])],
      scanned_paths := ["/A", "/B"],
      extension := "jpg",
      detection_mode := "checksum" } rfl
  exact ⟨h.1 { path := "/A/u.jpg", date := some 1, size := some 50,
                filename := some "u.jpg", exif_date := none, checksum := some "Y" } (by decide)
      ({ path := "/A/d1.jpg", date := some 2, size := some 100, filename := some "d1.jpg",
         exif_date := none, checksum := some "X" }, ["/A/d1.jpg", "/B/d2.jpg"]) (by decide),
    h.2.1 ({ path := "/A/d1.jpg", date := some 2, size := some 100, filename := some "d1.jpg",
             exif_date := none, checksum := some "X" }, ["/A/d1.jpg", "/B/d2.jpg"]) (by decide)⟩

theorem keyMatch_iff {α : Type} (K : Keyed α) (k x : α) :
    keyMatch K k x = true ↔ K.hkey k = K.hkey x ∧ K.eqb k x = true := by
  simp [keyMatch]

theorem one_lt_length_of_mem_ne {α : Type} {a b : α} {l : List α} (ha : a ∈ l) (hb : b ∈ l)
    (hne : a ≠ b) : 1 < l.length := by
  cases l with
  | nil => cases ha
  | cons x t =>
    cases t with
    | nil =>
      rcases List.mem_singleton.mp ha with rfl
      rcases List.mem_singleton.mp hb with rfl
      exact absurd rfl hne
    | cons y t2 => simp

/-- C3 amended: when an identity classified unique in two different
per-root results agrees on both equality and hash key (always the case in
checksum mode), the cross-folder merge reports it as exactly one
duplicate group holding both paths and never as two unique entries, and
every merge-map entry is classified purely by path-set cardinality. -/
theorem c3_cross_folder_merge_amended {α : Type} (K : Keyed α) (l1 l2 l3 : List α)
    (u1 u2 : α) (ad : PMap α)
    (hsym : ∀ a b : α, K.eqb a b = K.eqb b a)
    (htrans : ∀ a b c : α, K.hkey a = K.hkey b → K.hkey b = K.hkey c →
      K.eqb a b = true → K.eqb b c = true → K.eqb a c = true)
    (hku : K.hkey u1 = K.hkey u2) (heq : K.eqb u1 u2 = true)
    (hpath : K.pathOf u1 ≠ K.pathOf u2) :
    (∃ kp ∈ (mergeFolderResults K (l1 ++ u1 :: (l2 ++ u2 :: l3)) ad).2,
        (keyMatch K kp.1 u1 = true ∧ K.pathOf u1 ∈ kp.2 ∧ K.pathOf u2 ∈ kp.2) ∧
        ∀ kp2 ∈ (mergeFolderResults K (l1 ++ u1 :: (l2 ++ u2 :: l3)) ad).2,
          keyMatch K kp2.1 u1 = true → kp2 = kp) ∧
    (∀ x ∈ (mergeFolderResults K (l1 ++ u1 :: (l2 ++ u2 :: l3)) ad).1,
        keyMatch K x u1 = false ∧ keyMatch K x u2 = false) ∧
    (∀ kp ∈ mergeImageMap K (l1 ++ u1 :: (l2 ++ u2 :: l3)) ad,
        (1 < kp.2.length → kp ∈ (mergeFolderResults K (l1 ++ u1 :: (l2 ++ u2 :: l3)) ad).2) ∧
        (¬ 1 < kp.2.length → kp.1 ∈ (mergeFolderResults K (l1 ++ u1 :: (l2 ++ u2 :: l3)) ad).1)) := by
  have heq21 : K.eqb u2 u1 = true := by rw [hsym u2 u1]; exact heq
  have equ11 : K.eqb u1 u1 = true := htrans u1 u2 u1 hku hku.symm heq heq21
  set au := l1 ++ u1 :: (l2 ++ u2 :: l3) with hau
  set m0 := ad.foldl (fun a kp => assignKey K a kp.1 kp.2) ([] : PMap α) with hm0def
  set m1 := l1.foldl (upsert K) m0 with hm1def
  set m2 := upsert K m1 u1 with hm2def
  set m3 := l2.foldl (upsert K) m2 with hm3def
  set m4 := upsert K m3 u2 with hm4def
  have hMfold : mergeImageMap K au ad = l3.foldl (upsert K) m4 := by
    rw [hau, hm4def, hm3def, hm2def, hm1def, hm0def]
    show au.foldl (upsert K) _ = _
    rw [hau]
    simp [List.foldl_append]
  have hm0nkc : NoKeyClash K m0 := foldlAssign_noKeyClash K ad [] (by simp [NoKeyClash])
  have hm1nkc : NoKeyClash K m1 := foldlUpsert_noKeyClash K l1 m0 hm0nkc
  have hm2nkc : NoKeyClash K m2 := upsert_noKeyClash K u1 hm1nkc
  have hm3nkc : NoKeyClash K m3 := foldlUpsert_noKeyClash K l2 m2 hm2nkc
  have hm4nkc : NoKeyClash K m4 := upsert_noKeyClash K u2 hm3nkc
  have hMnkc : NoKeyClash K (mergeImageMap K au ad) := by
    rw [hMfold]
    exact foldlUpsert_noKeyClash K l3 m4 hm4nkc
  obtain ⟨e, hem2, heMatch, hePath⟩ := upsert_self_found K m1 u1 equ11
  obtain ⟨e3, he3m3, he3key, he3paths⟩ := foldlUpsert_persist K l2 hem2
  have he3Match : keyMatch K e3.1 u1 = true := by rw [he3key]; exact heMatch
  have he3p1 : K.pathOf u1 ∈ e3.2 := he3paths _ hePath
  obtain ⟨hh31, heq31⟩ := (keyMatch_iff K e3.1 u1).mp he3Match
  have hh32 : K.hkey e3.1 = K.hkey u2 := hh31.trans hku
  have heq32 : K.eqb e3.1 u2 = true := htrans e3.1 u1 u2 hh31 hku heq31 heq
  have hm32 : keyMatch K e3.1 u2 = true := (keyMatch_iff K e3.1 u2).mpr ⟨hh32, heq32⟩
  have huniq3 : ∀ f ∈ m3, keyMatch K f.1 u2 = true → f = e3 := by
    intro f hf hfm
    by_contra hne
    obtain ⟨hhf, heqf⟩ := (keyMatch_iff K f.1 u2).mp hfm
    have heqf3 : K.eqb f.1 e3.1 = true :=
      htrans f.1 u2 e3.1 hhf hh32.symm heqf (by rw [hsym u2 e3.1]; exact heq32)
    have heq3f : K.eqb e3.1 f.1 = true := by rw [hsym e3.1 f.1]; exact heqf3
    have km1 : keyMatch K f.1 e3.1 = true :=
      (keyMatch_iff K f.1 e3.1).mpr ⟨hhf.trans hh32.symm, heqf3⟩
    have km2 : keyMatch K e3.1 f.1 = true :=
      (keyMatch_iff K e3.1 f.1).mpr ⟨(hhf.trans hh32.symm).symm, heq3f⟩
    rcases noKeyClash_distinct_entries K hm3nkc hf he3m3 hne with h | h
    · rw [km1] at h
      cases h
    · rw [km2] at h
      cases h
  have he4 : (e3.1, addPath e3.2 (K.pathOf u2)) ∈ m4 := upsert_unique_match K he3m3 hm32 huniq3
  obtain ⟨efin, hefinM0, hefinkey, hefinpaths⟩ := foldlUpsert_persist K l3 he4
  have hefinM : efin ∈ mergeImageMap K au ad := by rw [hMfold]; exact hefinM0
  have hp1 : K.pathOf u1 ∈ efin.2 := hefinpaths _ (addPath_mem_mono _ he3p1)
  have hp2 : K.pathOf u2 ∈ efin.2 := hefinpaths _ (addPath_mem_self _ _)
  have hefinMatch1 : keyMatch K efin.1 u1 = true := by rw [hefinkey]; exact he3Match
  have hefinMatch2 : keyMatch K efin.1 u2 = true := by rw [hefinkey]; exact hm32
  have hlen : 1 < efin.2.length := one_lt_length_of_mem_ne hp1 hp2 hpath
  have hFgen : ∀ (v : α), keyMatch K efin.1 v = true →
      ∀ kp2 ∈ mergeImageMap K au ad, keyMatch K kp2.1 v = true → kp2 = efin := by
    intro v hev kp2 hkp2 hkv
    by_contra hne
    obtain ⟨hhe, heqe⟩ := (keyMatch_iff K efin.1 v).mp hev
    obtain ⟨hhk, heqk⟩ := (keyMatch_iff K kp2.1 v).mp hkv
    have heqke : K.eqb kp2.1 efin.1 = true :=
      htrans kp2.1 v efin.1 hhk hhe.symm heqk (by rw [hsym v efin.1]; exact heqe)
    have heqek : K.eqb efin.1 kp2.1 = true := by rw [hsym efin.1 kp2.1]; exact heqke
    have km1 : keyMatch K kp2.1 efin.1 = true :=
      (keyMatch_iff K kp2.1 efin.1).mpr ⟨hhk.trans hhe.symm, heqke⟩
    have km2 : keyMatch K efin.1 kp2.1 = true :=
      (keyMatch_iff K efin.1 kp2.1).mpr ⟨(hhk.trans hhe.symm).symm, heqek⟩
    rcases noKeyClash_distinct_entries K hMnkc hkp2 hefinM hne with h | h
    · rw [km1] at h
      cases h
    · rw [km2] at h
      cases h
  have hsplit : mergeFolderResults K au ad = splitGroups (mergeImageMap K au ad) := rfl
  refine ⟨⟨efin, ?_, ⟨hefinMatch1, hp1, hp2⟩, ?_⟩, ?_, ?_⟩
  · rw [hsplit]
    exact (splitGroups_dups_mem _ efin).mpr ⟨hefinM, hlen⟩
  · intro kp2 hkp2 hkv
    rw [hsplit] at hkp2
    exact hFgen u1 hefinMatch1 kp2 ((splitGroups_dups_mem _ kp2).mp hkp2).1 hkv
  · intro x hx
    rw [hsplit] at hx
    obtain ⟨kpx, hkpx, hkx1, hkxlen⟩ := (splitGroups_uniques_mem _ x).mp hx
    constructor
    · refine eq_false_of_ne_true ?_
      intro hmx
      have : kpx = efin := hFgen u1 hefinMatch1 kpx hkpx (by rw [hkx1]; exact hmx)
      rw [this] at hkxlen
      exact hkxlen hlen
    · refine eq_false_of_ne_true ?_
      intro hmx
      have : kpx = efin := hFgen u2 hefinMatch2 kpx hkpx (by rw [hkx1]; exact hmx)
      rw [this] at hkxlen
      exact hkxlen hlen
  · intro kp hkp
    constructor
    · intro hl
      rw [hsplit]
      exact (splitGroups_dups_mem _ kp).mpr ⟨hkp, hl⟩
    · intro hl
      rw [hsplit]
      exact (splitGroups_uniques_mem _ kp.1).mpr ⟨kp, hkp, rfl, hl⟩

theorem ckEq_true_iff (a b : PyImage) :
    ckEq a b = true ↔ a.checksum = b.checksum ∧ a.size = b.size ∧ a.checksum ≠ none := by
  simp [ckEq, Option.isSome_iff_ne_none, and_assoc]

theorem ckEq_symm (a b : PyImage) : ckEq a b = ckEq b a := by
  cases h1 : ckEq a b
  · cases h2 : ckEq b a
    · rfl
    · obtain ⟨hc, hs, hn⟩ := (ckEq_true_iff b a).mp h2
      have h3 : ckEq a b = true :=
        (ckEq_true_iff a b).mpr ⟨hc.symm, hs.symm, by rw [← hc]; exact hn⟩
      rw [h1] at h3
      cases h3
  · obtain ⟨hc, hs, hn⟩ := (ckEq_true_iff a b).mp h1
    exact ((ckEq_true_iff b a).mpr ⟨hc.symm, hs.symm, by rw [← hc]; exact hn⟩).symm

theorem ckEq_trans (a b c : PyImage) (h1 : ckEq a b = true) (h2 : ckEq b c = true) :
    ckEq a c = true := by
  obtain ⟨hc1, hs1, hn1⟩ := (ckEq_true_iff a b).mp h1
  obtain ⟨hc2, hs2, _⟩ := (ckEq_true_iff b c).mp h2
  exact (ckEq_true_iff a c).mpr ⟨hc1.trans hc2, hs1.trans hs2, hn1⟩

/-- C3 counterexample: the claim as stated fails in metadata mode.  A
byte-identical image renamed between roots `/A` and `/B` (same EXIF date
and size, different filenames) is the same Identity in both per-root
results, yet the merge leaves two separate unique entries and no
duplicate group, because the two equal identities hash differently. -/
theorem c3_counterexample_two_uniques :
    ∃ r, serviceScan
        [("/A", [{ absPath := "/A/a.jpg", name := "a.jpg", mtime := 1, size := 100,
                   isImage := true, exif := some "2020:01:01 00:00:00" }]),
         ("/B", [{ absPath := "/B/b.jpg", name := "b.jpg", mtime := 2, size := 100,
                   isImage := true, exif := some "2020:01:01 00:00:00" }])]
        (ExtArg.single "jpg") false none none = Except.ok r ∧
      r.duplicates = [] ∧ r.uniques.length = 2 ∧
      ∀ u1 ∈ r.uniques, ∀ u2 ∈ r.uniques, metaEq u1 u2 = true := by
  refine ⟨_, rfl, ?_⟩
  decide

/-- C3 witness: the amended merge property applied to two concrete
checksum-variant instances of the same content in two roots. -/
theorem c3_cross_folder_merge_amended_witness :
    (∃ kp ∈ (mergeFolderResults ckKeyed
        ([] ++ { path := "/A/x.jpg", size := some 100, checksum := some "X" } ::
          ([] ++ { path := "/B/y.jpg", size := some 100, checksum := some "X" } ::
            ([] : List PyImage))) []).2,
        (keyMatch ckKeyed kp.1 { path := "/A/x.jpg", size := some 100, checksum := some "X" } = true ∧
          ckKeyed.pathOf { path := "/A/x.jpg", size := some 100, checksum := some "X" } ∈ kp.2 ∧
          ckKeyed.pathOf { path := "/B/y.jpg", size := some 100, checksum := some "X" } ∈ kp.2) ∧
        ∀ kp2 ∈ (mergeFolderResults ckKeyed
            ([] ++ { path := "/A/x.jpg", size := some 100, checksum := some "X" } ::
              ([] ++ { path := "/B/y.jpg", size := some 100, checksum := some "X" } ::
                ([] : List PyImage))) []).2,
          keyMatch ckKeyed kp2.1
            { path := "/A/x.jpg", size := some 100, checksum := some "X" } = true → kp2 = kp) ∧
    (∀ x ∈ (mergeFolderResults ckKeyed
        ([] ++ { path := "/A/x.jpg", size := some 100, checksum := some "X" } ::
          ([] ++ { path := "/B/y.jpg", size := some 100, checksum := some "X" } ::
            ([] : List PyImage))) []).1,
        keyMatch ckKeyed x { path := "/A/x.jpg", size := some 100, checksum := some "X" } = false ∧
        keyMatch ckKeyed x { path := "/B/y.jpg", size := some 100, checksum := some "X" } = false) ∧
    (∀ kp ∈ mergeImageMap ckKeyed
        ([] ++ { path := "/A/x.jpg", size := some 100, checksum := some "X" } ::
          ([] ++ { path := "/B/y.jpg", size := some 100, checksum := some "X" } ::
            ([] : List PyImage))) [],
        (1 < kp.2.length → kp ∈ (mergeFolderResults ckKeyed
            ([] ++ { path := "/A/x.jpg", size := some 100, checksum := some "X" } ::
              ([] ++ { path := "/B/y.jpg", size := some 100, checksum := some "X" } ::
                ([] : List PyImage))) []).2) ∧
        (¬ 1 < kp.2.length → kp.1 ∈ (mergeFolderResults ckKeyed
            ([] ++ { path := "/A/x.jpg", size := some 100, checksum := some "X" } ::
              ([] ++ { path := "/B/y.jpg", size := some 100, checksum := some "X" } ::
                ([] : List PyImage))) []).1)) :=
  c3_cross_folder_merge_amended ckKeyed [] [] []
    { path := "/A/x.jpg", size := some 100, checksum := some "X" }
    { path := "/B/y.jpg", size := some 100, checksum := some "X" } []
    ckEq_symm (fun a b c _ _ => ckEq_trans a b c) (by decide) (by decide) (by decide)

theorem collectExt_visited_mono {e : String} {files : List FsFile}
    {st : List String × List String} {q : String} (h : q ∈ st.2) :
    q ∈ (collectFilesExt e files st).2 := by
  induction files generalizing st with
  | nil => simpa [collectFilesExt]
  | cons f rest ih =>
    rw [collectFilesExt]
    by_cases hm : matchesExt f.name e
    · by_cases hv : f.absPath ∈ st.2
      · simp only [hm, hv, if_true]
        exact ih h
      · simp only [hm, hv, if_true, if_false]
        exact ih (by simp [h])
    · simp only [hm, Bool.false_eq_true, if_false]
      exact ih h

theorem collectExt_covers {e : String} {files : List FsFile} {f : FsFile}
    (st : List String × List String) (hf : f ∈ files) (hm : matchesExt f.name e = true) :
    f.absPath ∈ (collectFilesExt e files st).2 := by
  induction files generalizing st with
  | nil => cases hf
  | cons f0 rest ih =>
    rw [collectFilesExt]
    rcases List.mem_cons.mp hf with rfl | hf
    · by_cases hv : f.absPath ∈ st.2
      · simp only [hm, hv, if_true]
        exact collectExt_visited_mono hv
      · simp only [hm, hv, if_true, if_false]
        exact collectExt_visited_mono (by simp)
    · by_cases hm0 : matchesExt f0.name e
      · by_cases hv : f0.absPath ∈ st.2
        · simp only [hm0, hv, if_true]
          exact ih st hf
        · simp only [hm0, hv, if_true, if_false]
          exact ih _ hf
      · simp only [hm0, Bool.false_eq_true, if_false]
        exact ih st hf

theorem collectExt_collected_mono {e : String} {files : List FsFile}
    {st : List String × List String} {q : String} (h : q ∈ st.1) :
    q ∈ (collectFilesExt e files st).1 := by
  induction files generalizing st with
  | nil => simpa [collectFilesExt]
  | cons g t ih =>
    rw [collectFilesExt]
    by_cases hg : matchesExt g.name e
    · by_cases hgv : g.absPath ∈ st.2
      · simp only [hg, hgv, if_true]
        exact ih h
      · simp only [hg, hgv, if_true, if_false]
        exact ih (by simp [h])
    · simp only [hg, Bool.false_eq_true, if_false]
      exact ih h

theorem collectExt_visited_sub {e : String} {files : List FsFile}
    {st : List String × List String} {q : String}
    (h : q ∈ (collectFilesExt e files st).2) :
    q ∈ st.2 ∨ q ∈ (collectFilesExt e files st).1 := by
  induction files generalizing st with
  | nil => exact Or.inl (by simpa [collectFilesExt] using h)
  | cons f0 rest ih =>
    rw [collectFilesExt] at h ⊢
    by_cases hm : matchesExt f0.name e
    · by_cases hv : f0.absPath ∈ st.2
      · simp only [hm, hv, if_true] at h ⊢
        exact ih h
      · simp only [hm, hv, if_true, if_false] at h ⊢
        rcases ih h with h2 | h2
        · rcases List.mem_append.mp h2 with h3 | h3
          · exact Or.inl h3
          · exact Or.inr (collectExt_collected_mono (by simp [List.mem_singleton.mp h3]))
        · exact Or.inr h2
    · simp only [hm, Bool.false_eq_true, if_false] at h ⊢
      exact ih h

theorem collect_paths_visited_mono {exts : List String} {files : List FsFile}
    {st : List String × List String} {q : String} (h : q ∈ st.2) :
    q ∈ (collect_paths files exts st).2 := by
  induction exts generalizing st with
  | nil => simpa [collect_paths]
  | cons e rest ih =>
    rw [collect_paths]
    exact ih (collectExt_visited_mono h)

theorem collect_paths_collected_mono {exts : List String} {files : List FsFile}
    {st : List String × List String} {q : String} (h : q ∈ st.1) :
    q ∈ (collect_paths files exts st).1 := by
  induction exts generalizing st with
  | nil => simpa [collect_paths]
  | cons e rest ih =>
    rw [collect_paths]
    exact ih (collectExt_collected_mono h)

theorem collect_paths_covers {exts : List String} {files : List FsFile} {f : FsFile}
    {e : String} (st : List String × List String) (he : e ∈ exts) (hf : f ∈ files)
    (hm : matchesExt f.name e = true) :
    f.absPath ∈ (collect_paths files exts st).2 := by
  induction exts generalizing st with
  | nil => cases he
  | cons e0 rest ih =>
    rw [collect_paths]
    rcases List.mem_cons.mp he with rfl | he
    · exact collect_paths_visited_mono (collectExt_covers st hf hm)
    · exact ih _ he

theorem collect_paths_visited_sub {exts : List String} {files : List FsFile}
    {st : List String × List String} {q : String}
    (h : q ∈ (collect_paths files exts st).2) :
    q ∈ st.2 ∨ q ∈ (collect_paths files exts st).1 := by
  induction exts generalizing st with
  | nil => exact Or.inl (by simpa [collect_paths] using h)
  | cons e rest ih =>
    rw [collect_paths] at h ⊢
    rcases ih h with h2 | h2
    · rcases collectExt_visited_sub h2 with h3 | h3
      · exact Or.inl h3
      · exact Or.inr (collect_paths_collected_mono h3)
    · exact Or.inr h2

theorem collect_paths_mem_of_match {exts : List String} {files : List FsFile} {f : FsFile}
    {e : String} (he : e ∈ exts) (hf : f ∈ files) (hm : matchesExt f.name e = true) :
    f.absPath ∈ (collect_paths files exts ([], [])).1 := by
  rcases collect_paths_visited_sub (collect_paths_covers ([], []) he hf hm) with h | h
  · cases h
  · exact h

theorem process_image_of_mem {useCk : Bool} {files : List FsFile} {f : FsFile}
    (hnd : (files.map FsFile.absPath).Nodup) (hf : f ∈ files) (hi : f.isImage = true) :
    process_image useCk files f.absPath =
      some { path := f.absPath, date := some f.mtime, size := some f.size,
             filename := some f.name, exif_date := f.exif,
             checksum := if useCk then f.md5 else none } := by
  unfold process_image
  cases hfind : files.find? (fun g => g.absPath == f.absPath) with
  | none =>
    exfalso
    have := List.find?_eq_none.mp hfind f hf
    simp at this
  | some g =>
    have hg : g.absPath = f.absPath := by
      have := List.find?_some hfind
      simpa using this
    have hgf : g = f :=
      List.inj_on_of_nodup_map hnd (List.mem_of_find?_eq_some hfind) hf hg
    subst hgf
    simp [hi]

theorem probedImages_covers (useCk : Bool) {exts : List String} {files : List FsFile}
    {f : FsFile} {e : String} (hnd : (files.map FsFile.absPath).Nodup) (he : e ∈ exts)
    (hf : f ∈ files) (hi : f.isImage = true) (hm : matchesExt f.name e = true) :
    ∃ img ∈ probedImages useCk exts files, img.path = f.absPath := by
  refine ⟨{ path := f.absPath, date := some f.mtime, size := some f.size,
            filename := some f.name, exif_date := f.exif,
            checksum := if useCk then f.md5 else none }, ?_, rfl⟩
  unfold probedImages
  rw [List.mem_filterMap]
  exact ⟨f.absPath, collect_paths_mem_of_match he hf hm, process_image_of_mem hnd hf hi⟩

theorem mapPaths_eq_flatten {α : Type} (m : PMap α) :
    mapPaths m = (m.map (fun kp => kp.2)).flatten := by
  induction m with
  | nil => simp [mapPaths]
  | cons kp rest ih => simp [mapPaths, ih]

theorem folder_paths_cover {useCk : Bool} {exts : List String} {fs : List FsFile}
    {img : PyImage} (h : img ∈ probedImages useCk exts fs) :
    img.path ∈ (find_duplicates useCk exts fs).1.map PyImage.path ∨
      img.path ∈ mapPaths (find_duplicates useCk exts fs).2 := by
  rw [find_duplicates_eq]
  have hmem : (modeKeyed useCk).pathOf img ∈
      mapPaths (groupFiles (modeKeyed useCk) (probedImages useCk exts fs)) :=
    groupFiles_pathOf_mem (modeKeyed useCk) h
  have hok := groupFiles_entryOk (modeKeyed useCk) (probedImages useCk exts fs)
  have := splitGroups_paths_cover (modeKeyed useCk) hok hmem
  rw [modeKeyed_pathOf] at this
  exact this

/-- C2: the extension argument may be a single string or a list with no
behavioural difference, and the discovery step enumerates and probes
exactly the files whose names literally end in a dot followed by one of
the given extensions (no case normalization), every such decodable file
contributing its identity's path to the completed scan's result. -/
theorem c2_extension_filter_and_discovery :
    (∀ (folders : List (String × List FsFile)) (e : String) (useCk : Bool)
        (base : Option (ScanResultM PyImage)) (obs : Option Nat),
      serviceScan folders (ExtArg.single e) useCk base obs =
        serviceScan folders (ExtArg.multi [e]) useCk base obs) ∧
    (∀ (folders : List (String × List FsFile)) (exts : List String) (useCk : Bool),
      ∀ fo ∈ folders, ∀ f ∈ fo.2,
        (fo.2.map FsFile.absPath).Nodup → f.isImage = true →
        (∃ e ∈ exts, matchesExt f.name e = true) →
        ∀ r, serviceScan folders (ExtArg.multi exts) useCk none none = Except.ok r →
          f.absPath ∈ allResultPaths (modeKeyed useCk) r) := by
  constructor
  · intro folders e useCk base obs
    rfl
  · intro folders exts useCk fo hfo f hff hnd hi ⟨e, he, hm⟩ r hr
    rw [serviceScan_ok_eq] at hr
    injection hr with hr
    subst hr
    set K := modeKeyed useCk with hK
    set fss := folders.map (fun g => g.2) with hfss
    set rsf := fss.map (find_duplicates useCk (normalizeExt (ExtArg.multi exts))) with hrsf
    set A := aggregateResults K rsf with hA
    set M := mergeImageMap K A.1 A.2 with hM
    have hexts : normalizeExt (ExtArg.multi exts) = exts := rfl
    have hd_ok : ∀ e2 ∈ A.2, entryOk K e2 := by
      refine aggregate_dups_entryOk K rsf ([], []) (by simp) ?_
      intro rr hrr e2 he2
      rcases List.mem_map.mp hrr with ⟨fs, _, rfl⟩
      exact folder_dups_entryOk he2
    have hd_nkc : NoKeyClash K A.2 :=
      aggregate_dups_noKeyClash K rsf ([], []) (by simp [NoKeyClash])
    have hm_ok : ∀ e2 ∈ M, entryOk K e2 := mergeImageMap_entryOk K A.1 hd_nkc hd_ok
    obtain ⟨img, himg, hpath⟩ := probedImages_covers useCk hnd he hff hi hm
    have hrf : find_duplicates useCk exts fo.2 ∈ rsf := by
      rw [hrsf, hexts]
      exact List.mem_map_of_mem _ (List.mem_map_of_mem _ hfo)
    rw [hexts] at hrsf
    have hcover := folder_paths_cover himg
    have hinM : img.path ∈ mapPaths M := by
      rcases hcover with hcu | hcd
      · rcases List.mem_map.mp hcu with ⟨u, hu, hup⟩
        have huA : u ∈ A.1 :=
          (aggregate_uniques_mem K rsf ([], []) u).mpr
            (Or.inr ⟨find_duplicates useCk exts fo.2, hrf, hu⟩)
        have := mergeImageMap_pathOf_unique K A.2 huA
        rw [hM]
        rw [modeKeyed_pathOf] at this
        rw [← hup]
        exact this
      · obtain ⟨kp, hkp, hq⟩ := (mapPaths_mem_iff _ img.path).mp hcd
        have : img.path ∈ mapPaths A.2 :=
          aggregate_dups_paths_new K ([], []) hrf hkp hq
        rw [hM]
        exact mergeImageMap_paths_ad K A.1 hd_nkc this
    have hsplitcover := splitGroups_paths_cover K hm_ok hinM
    have hsplit : mergeFolderResults K A.1 A.2 = splitGroups M := rfl
    rw [← hpath]
    unfold allResultPaths
    simp only [hsplit]
    rcases hsplitcover with h2 | h2
    · exact List.mem_append.mpr (Or.inl h2)
    · refine List.mem_append.mpr (Or.inr ?_)
      rw [← mapPaths_eq_flatten]
      exact h2

/-- C2 witness: both halves applied at concrete inputs — the two argument
forms coincide on an empty scan, and a concrete matching image's path
shows up in its scan's result. -/
theorem c2_extension_filter_and_discovery_witness :
    (serviceScan [] (ExtArg.single "jpg") false none none =
      serviceScan [] (ExtArg.multi ["jpg"]) false none none) ∧
    "/A/a.jpg" ∈ allResultPaths (modeKeyed false)
      { uniques := [{ path := "/A/a.jpg", date := some 5, size := some 10,
                      filename := some "a.jpg", exif_date := none, checksum := none }],
        duplicates := [],
        scanned_paths := ["/A"],
        extension := "jpg",
        detection_mode := "metadata" } :=
  ⟨c2_extension_filter_and_discovery.1 [] "jpg" false none none,
   c2_extension_filter_and_discovery.2
     [("/A", [{ absPath := "/A/a.jpg", name := "a.jpg", mtime := 5, size := 10,
                isImage := true }])] ["jpg"] false
     ("/A", [{ absPath := "/A/a.jpg", name := "a.jpg", mtime := 5, size := 10,
               isImage := true }]) (by decide)
     { absPath := "/A/a.jpg", name := "a.jpg", mtime := 5, size := 10, isImage := true }
     (by decide) (by decide) (by decide) ⟨"jpg", by decide, by decide⟩
     { uniques := [{ path := "/A/a.jpg", date := some 5, size := some 10,
                     filename := some "a.jpg", exif_date := none, checksum := none }],
       duplicates := [],
       scanned_paths := ["/A"],
       extension := "jpg",
       detection_mode := "metadata" } rfl⟩
